import Mathlib

/-!
Verification of the peg-solitaire (Solo) search engine of this repository.

The source files `bfs.py`, `HDFS.py`, `soloT.py`, `soloT2.py` and `test.py`
all build the same 7x7 English-board topology from a fixed textual template
and share the move rules.  Cells are encoded as in the source:
`-1` = invalid / corner, `0` = empty hole, `1` = peg.

A board is modelled as a total function `Fin 7 → Fin 7 → Int`, mirroring the
7x7 `List[List[int]]` grid of the source.
-/

abbrev Board := Fin 7 → Fin 7 → Int

abbrev Move := Nat × Nat

abbrev Key := List (List Int)

/-- The fixed board template (`TEMPLATE` in every source file):
`'x'` = hole with a peg, `'o'` = the initially empty hole, `' '` = no slot. -/
def TEMPLATE : List String :=
  ["  xxx",
   "  xxx",
   "xxxxxxx",
   "xxxoxxx",
   "xxxxxxx",
   "  xxx",
   "  xxx"]

/-- Row-major scan of the template: every `(r, c, ch)` cell, as produced by
the `for r, row in enumerate(TEMPLATE): for c, ch in enumerate(row)` loop. -/
def holeScan : List (Nat × Nat × Char) :=
  TEMPLATE.enum.flatMap (fun rrow => rrow.2.toList.enum.map (fun cch => (rrow.1, cch.1, cch.2)))

/-- The hole table built by the template scan: entries `(idx, r, c)` with
`idx` starting at 1 and incremented once per hole cell (`'x'` or `'o'`).
This is the contents of the `index_to_pos` / `pos_to_index` dictionaries. -/
def holes : List (Nat × Nat × Nat) :=
  ((holeScan.filter (fun x => x.2.2 == 'x' || x.2.2 == 'o')).enum.map
    (fun e => (e.1 + 1, e.2.1, e.2.2.1)))

/-- Dictionary lookup `index_to_pos[i]`, as an association-list lookup. -/
def index_to_pos (i : Nat) : Option (Nat × Nat) :=
  (holes.find? (fun h => h.1 == i)).map (fun h => h.2)

/-- Dictionary lookup `pos_to_index[(r, c)]`, as an association-list lookup. -/
def pos_to_index (p : Nat × Nat) : Option Nat :=
  (holes.find? (fun h => h.2 == p)).map (fun h => h.1)

/-- The source writes `pos_to_index[(to_r, to_c)]` without a membership
check (a `KeyError` would be raised for a non-hole position; on well-formed
boards the lookup always succeeds because the destination cell holds `0`).
`0` is not a valid hole id, so a failed lookup yields a recognizable junk id. -/
def posIndexD (p : Nat × Nat) : Nat :=
  (pos_to_index p).getD 0

/-- Orthogonal jump directions `DIRECTIONS = [(-1,0),(1,0),(0,-1),(0,1)]`. -/
def DIRECTIONS : List (Int × Int) := [(-1, 0), (1, 0), (0, -1), (0, 1)]

/-- Read a grid cell at integer coordinates.  The source indexes the 7x7
array directly; every consulted access is within bounds (the destination is
bounds-checked and the jumped cell lies between two in-bounds cells), so the
out-of-bounds default `-1` is never consulted. -/
def getI (b : Board) (r c : Int) : Int :=
  if h : 0 ≤ r ∧ r < 7 ∧ 0 ≤ c ∧ c < 7 then
    b ⟨r.toNat, by omega⟩ ⟨c.toNat, by omega⟩
  else -1

/-- Write a grid cell at natural coordinates (all writes in the source
target hole positions, which lie inside the 7x7 grid). -/
def setN (b : Board) (r c : Nat) (v : Int) : Board :=
  fun i j => if i.val = r ∧ j.val = c then v else b i j

/-- The initial board: `-1` everywhere, `1` on `'x'` cells, `0` on the
`'o'` cell, exactly as the construction loop fills the global `board`. -/
def initBoard : Board := fun r c =>
  match holeScan.find? (fun x => x.1 == r.val && x.2.1 == c.val) with
  | some x => if x.2.2 = 'x' then 1 else if x.2.2 = 'o' then 0 else -1
  | none => -1

/-- A grid position is a hole iff the position dictionary knows it. -/
def isHole (r c : Nat) : Bool := (pos_to_index (r, c)).isSome

/-- Well-formed boards have the fixed 33-hole topology: holes hold `0` or
`1`, every other cell holds `-1` (the spec's precondition: "the Board
passed in always has the fixed 33-hole topology"). -/
def WellFormed (b : Board) : Prop :=
  ∀ r c : Fin 7, if isHole r.val c.val then (b r c = 0 ∨ b r c = 1) else b r c = -1

instance : DecidablePred WellFormed := fun b => by
  unfold WellFormed; infer_instance

/-- Embedding of `legal_moves(current_board)` from `bfs.py` / `HDFS.py` / `soloT2.py`:
for every hole holding a peg, try the four jump directions; keep a move when
the destination is inside the 7x7 bounds, the jumped cell holds a peg and
the destination holds an empty hole. -/
def legal_moves (b : Board) : List Move :=
  holes.flatMap (fun h =>
    if getI b h.2.1 h.2.2 ≠ 1 then []
    else
      DIRECTIONS.filterMap (fun d =>
        let midR : Int := (h.2.1 : Int) + d.1
        let midC : Int := (h.2.2 : Int) + d.2
        let toR : Int := (h.2.1 : Int) + 2 * d.1
        let toC : Int := (h.2.2 : Int) + 2 * d.2
        if 0 ≤ toR ∧ toR < 7 ∧ 0 ≤ toC ∧ toC < 7 ∧
            getI b midR midC = 1 ∧ getI b toR toC = 0 then
          some (h.1, posIndexD (toR.toNat, toC.toNat))
        else none))

/-- The move application of `generate_child_boards` (`bfs.py`, `HDFS.py`)
and `make_move` (`soloT2.py`): resolve both hole ids, take the midpoint by
integer average, clear source and midpoint, set the destination.
The source indexes the dictionaries directly (a `KeyError` for an unknown
id); the fallback branch is unreachable for enumerated moves. -/
def applyMove (b : Board) (m : Move) : Board :=
  match index_to_pos m.1, index_to_pos m.2 with
  | some rc1, some rc2 =>
      setN (setN (setN b rc1.1 rc1.2 0)
        ((rc1.1 + rc2.1) / 2) ((rc1.2 + rc2.2) / 2) 0) rc2.1 rc2.2 1
  | _, _ => b

/-- Embedding of `peg_count`: the number of grid cells equal to `1`
(`sum(cell == 1 for row in current_board for cell in row)`). -/
def pegCount (b : Board) : Nat :=
  ∑ r : Fin 7, ∑ c : Fin 7, (if b r c = 1 then 1 else 0)

/-- Embedding of `serialize(board_state)`: the full 7x7 grid as a row-major
tuple-of-tuples, used as the canonical visited-set key. -/
def serialize (b : Board) : Key :=
  (List.finRange 7).map (fun r => (List.finRange 7).map (fun c => b r c))

/-- Embedding of `generate_successor_states` from `test.py`: the fused enumerate-and-apply
loop.  Each emitted triple is `(from_hole, to_hole, new_board_state)` where
the new board is a fresh copy with source and jumped cells cleared and the
destination set. -/
def generate_successor_states (b : Board) : List (Nat × Nat × Board) :=
  holes.flatMap (fun h =>
    if getI b h.2.1 h.2.2 ≠ 1 then []
    else
      DIRECTIONS.filterMap (fun d =>
        let jR : Int := (h.2.1 : Int) + d.1
        let jC : Int := (h.2.2 : Int) + d.2
        let dR : Int := (h.2.1 : Int) + 2 * d.1
        let dC : Int := (h.2.2 : Int) + 2 * d.2
        if 0 ≤ dR ∧ dR < 7 ∧ 0 ≤ dC ∧ dC < 7 ∧
            getI b jR jC = 1 ∧ getI b dR dC = 0 then
          some (h.1, posIndexD (dR.toNat, dC.toNat),
            setN (setN (setN b h.2.1 h.2.2 0) jR.toNat jC.toNat 0) dR.toNat dC.toNat 1)
        else none))

/-- Embedding of `generate_child_boards` from `bfs.py`: enumerate `legal_moves`, then apply
each move to a fresh copy; returns `(new_board, move)` pairs. -/
def generate_child_boards (b : Board) : List (Board × Move) :=
  (legal_moves b).map (fun m => (applyMove b m, m))

/-- Replaying a move sequence with the move applicator, demanding legality
of every step: the reference notion of "a move sequence that reaches a
board from the initial board". -/
def replay (b : Board) : List Move → Option Board
  | [] => some b
  | m :: ms => if m ∈ legal_moves b then replay (applyMove b m) ms else none

/-! ### Basic facts about the hole table -/

theorem find_proj_char {α β : Type} [BEq β] [LawfulBEq β] (g : α → β) (y : β) :
    ∀ (l : List α), (l.map g).Nodup → ∀ x : α, g x = y →
      (x ∈ l ↔ l.find? (fun a => g a == y) = some x) := by
  intro l
  induction l with
  | nil => simp
  | cons a tl ih =>
    intro hnd x hgx
    simp only [List.map_cons, List.nodup_cons] at hnd
    by_cases hga : g a = y
    · rw [List.find?_cons_of_pos _ (by simp [hga])]
      simp only [List.mem_cons, Option.some.injEq]
      constructor
      · rintro (rfl | hmem)
        · rfl
        · exact absurd (by simpa [hgx, ← hga] using List.mem_map_of_mem g hmem) hnd.1
      · rintro rfl; left; rfl
    · rw [List.find?_cons_of_neg _ (by simp [hga])]
      simp only [List.mem_cons]
      rw [← ih hnd.2 x hgx]
      constructor
      · rintro (rfl | hmem)
        · exact absurd hgx hga
        · exact hmem
      · intro h; right; exact h

theorem holes_fst_nodup : (holes.map (fun h => h.1)).Nodup := by decide

theorem holes_snd_nodup : (holes.map (fun h => h.2)).Nodup := by decide

theorem holes_bounds : ∀ h ∈ holes, h.2.1 < 7 ∧ h.2.2 < 7 := by decide

theorem index_to_pos_char {i : Nat} {p : Nat × Nat} :
    index_to_pos i = some p ↔ (i, p) ∈ holes := by
  constructor
  · intro h
    unfold index_to_pos at h
    rcases Option.map_eq_some'.mp h with ⟨x, hfind, hx2⟩
    have hmem := List.mem_of_find?_eq_some hfind
    have hpred := List.find?_some hfind
    have hx1 : x.1 = i := by simpa using hpred
    have hx : x = (i, p) := by
      cases x; simp_all
    rwa [hx] at hmem
  · intro hmem
    have := (find_proj_char (fun h => h.1) i holes holes_fst_nodup (i, p) rfl).mp hmem
    unfold index_to_pos
    rw [this]; rfl

theorem pos_to_index_char {i : Nat} {p : Nat × Nat} :
    pos_to_index p = some i ↔ (i, p) ∈ holes := by
  constructor
  · intro h
    unfold pos_to_index at h
    rcases Option.map_eq_some'.mp h with ⟨x, hfind, hx1⟩
    have hmem := List.mem_of_find?_eq_some hfind
    have hpred := List.find?_some hfind
    have hx2 : x.2 = p := by simpa using hpred
    have hx : x = (i, p) := by
      cases x; simp_all
    rwa [hx] at hmem
  · intro hmem
    have := (find_proj_char (fun h => h.2) p holes holes_snd_nodup (i, p) rfl).mp hmem
    unfold pos_to_index
    rw [this]; rfl

theorem index_pos_inverse {i : Nat} {p : Nat × Nat} :
    index_to_pos i = some p ↔ pos_to_index p = some i := by
  rw [index_to_pos_char, pos_to_index_char]

theorem posIndexD_of_hole {i : Nat} {p : Nat × Nat} (h : (i, p) ∈ holes) :
    posIndexD p = i := by
  unfold posIndexD
  rw [pos_to_index_char.mpr h]
  rfl

theorem isHole_iff {r c : Nat} : isHole r c = true ↔ ∃ i, (i, r, c) ∈ holes := by
  unfold isHole
  rw [Option.isSome_iff_exists]
  constructor
  · rintro ⟨i, hi⟩; exact ⟨i, pos_to_index_char.mp hi⟩
  · rintro ⟨i, hi⟩; exact ⟨i, pos_to_index_char.mpr hi⟩

/-! ### Reading and writing grid cells -/

theorem getI_coe (b : Board) {r c : Nat} (hr : r < 7) (hc : c < 7) :
    getI b r c = b ⟨r, hr⟩ ⟨c, hc⟩ := by
  have h : (0:Int) ≤ (r:Int) ∧ (r:Int) < 7 ∧ (0:Int) ≤ (c:Int) ∧ (c:Int) < 7 := by
    refine ⟨by positivity, by exact_mod_cast hr, by positivity, by exact_mod_cast hc⟩
  rw [getI, dif_pos h]
  have hr' : (⟨((r:Int)).toNat, by omega⟩ : Fin 7) = ⟨r, hr⟩ := Fin.ext (by simp)
  have hc' : (⟨((c:Int)).toNat, by omega⟩ : Fin 7) = ⟨c, hc⟩ := Fin.ext (by simp)
  rw [hr', hc']

theorem getI_fin (b : Board) (r c : Fin 7) :
    getI b r.val c.val = b r c := by
  rw [getI_coe b r.isLt c.isLt]

theorem serialize_inj {b b' : Board} (h : serialize b = serialize b') : b = b' := by
  funext r c
  have h1 := List.map_eq_map_iff.mp h r (List.mem_finRange r)
  exact List.map_eq_map_iff.mp h1 c (List.mem_finRange c)

/-! ### Well-formedness -/

theorem wf_hole {b : Board} (hwf : WellFormed b) {i : Nat} {p : Nat × Nat}
    (h : (i, p) ∈ holes) : getI b p.1 p.2 = 0 ∨ getI b p.1 p.2 = 1 := by
  obtain ⟨h1, h2⟩ := holes_bounds _ h
  have hh : isHole p.1 p.2 = true := isHole_iff.mpr ⟨i, by simpa using h⟩
  have := hwf ⟨p.1, h1⟩ ⟨p.2, h2⟩
  rw [hh] at this
  simpa [getI_coe b h1 h2] using this

theorem wf_nonhole {b : Board} (hwf : WellFormed b) {r c : Nat}
    (hr : r < 7) (hc : c < 7) (h : isHole r c = false) : getI b r c = -1 := by
  have := hwf ⟨r, hr⟩ ⟨c, hc⟩
  rw [h] at this
  simpa [getI_coe b hr hc] using this

theorem wf_zero_hole {b : Board} (hwf : WellFormed b) {r c : Nat}
    (hr : r < 7) (hc : c < 7) (h : getI b r c = 0) : ∃ i, (i, r, c) ∈ holes := by
  by_cases hh : isHole r c = true
  · exact isHole_iff.mp hh
  · have := wf_nonhole hwf hr hc (by simpa using hh)
    omega

/-! ### Replay -/

theorem replay_append (b : Board) (p q : List Move) :
    replay b (p ++ q) = (replay b p).bind (fun c => replay c q) := by
  induction p generalizing b with
  | nil => simp [replay]
  | cons m ms ih =>
    simp only [List.cons_append, replay]
    split
    · exact ih _
    · simp

/-! ### Characterizing legal move enumeration -/

theorem mem_legal_moves {b : Board} {f t : Nat} :
    (f, t) ∈ legal_moves b ↔
      ∃ r c, (f, r, c) ∈ holes ∧ getI b r c = 1 ∧
        ∃ d ∈ DIRECTIONS,
          (0 ≤ (r:Int) + 2*d.1 ∧ (r:Int) + 2*d.1 < 7 ∧ 0 ≤ (c:Int) + 2*d.2 ∧ (c:Int) + 2*d.2 < 7 ∧
            getI b ((r:Int)+d.1) ((c:Int)+d.2) = 1 ∧ getI b ((r:Int)+2*d.1) ((c:Int)+2*d.2) = 0) ∧
          t = posIndexD (((r:Int)+2*d.1).toNat, ((c:Int)+2*d.2).toNat) := by
  constructor
  · intro h
    rw [legal_moves, List.mem_flatMap] at h
    obtain ⟨hh, hmem, hin⟩ := h
    by_cases hpeg : getI b hh.2.1 hh.2.2 ≠ 1
    · rw [if_pos hpeg] at hin; simp at hin
    · rw [if_neg hpeg] at hin
      push_neg at hpeg
      rw [List.mem_filterMap] at hin
      obtain ⟨d, hd, heq⟩ := hin
      simp only at heq
      split at heq
      · rename_i hcond
        injection heq with heq1
        injection heq1 with hf ht
        refine ⟨hh.2.1, hh.2.2, ?_, hpeg, d, hd, hcond, ht.symm⟩
        rw [← hf]
        simpa using hmem
      · exact absurd heq (by simp)
  · rintro ⟨r, c, hmem, hpeg, d, hd, hcond, ht⟩
    rw [legal_moves, List.mem_flatMap]
    refine ⟨(f, r, c), hmem, ?_⟩
    rw [if_neg (by simpa using hpeg)]
    rw [List.mem_filterMap]
    refine ⟨d, hd, ?_⟩
    simp only
    rw [if_pos hcond, ht]

theorem dir_bridge {r c rt ct : Nat} {d : Int × Int} (hd : d ∈ DIRECTIONS)
    (h1 : 0 ≤ (r:Int) + 2*d.1) (h2 : (r:Int) + 2*d.1 < 7)
    (h3 : 0 ≤ (c:Int) + 2*d.2) (h4 : (c:Int) + 2*d.2 < 7)
    (hrt : ((r:Int) + 2*d.1).toNat = rt) (hct : ((c:Int) + 2*d.2).toNat = ct) :
    ((r = rt ∧ (ct = c + 2 ∨ c = ct + 2)) ∨ (c = ct ∧ (rt = r + 2 ∨ r = rt + 2))) ∧
    (((r + rt) / 2 : Nat) : Int) = (r:Int) + d.1 ∧ (((c + ct) / 2 : Nat) : Int) = (c:Int) + d.2 := by
  fin_cases hd <;> simp_all <;> omega

theorem dir_bridge_rev {r c rt ct : Nat}
    (hgeom : (r = rt ∧ (ct = c + 2 ∨ c = ct + 2)) ∨ (c = ct ∧ (rt = r + 2 ∨ r = rt + 2))) :
    ∃ d ∈ DIRECTIONS, (r:Int) + 2*d.1 = rt ∧ (c:Int) + 2*d.2 = ct := by
  rcases hgeom with ⟨h, h2 | h2⟩ | ⟨h, h2 | h2⟩
  · exact ⟨(0,1), by simp [DIRECTIONS], by push_cast; omega, by push_cast; omega⟩
  · exact ⟨(0,-1), by simp [DIRECTIONS], by push_cast; omega, by push_cast; omega⟩
  · exact ⟨(1,0), by simp [DIRECTIONS], by push_cast; omega, by push_cast; omega⟩
  · exact ⟨(-1,0), by simp [DIRECTIONS], by push_cast; omega, by push_cast; omega⟩

/-- The spec's wording of move legality: "A move is legal for a board iff
`from` holds a `Peg`, `to` holds `Empty`, `from` and `to` are exactly two
cells apart along one grid axis, and the cell directly between them holds
a `Peg`".  Stated over hole ids resolved through `index_to_pos`. -/
def SpecLegal (b : Board) (f t : Nat) : Prop :=
  ∃ rf cf rt ct, index_to_pos f = some (rf, cf) ∧ index_to_pos t = some (rt, ct) ∧
    getI b rf cf = 1 ∧ getI b rt ct = 0 ∧
    ((rf = rt ∧ (ct = cf + 2 ∨ cf = ct + 2)) ∨ (cf = ct ∧ (rt = rf + 2 ∨ rf = rt + 2))) ∧
    getI b (((rf + rt) / 2 : Nat) : Int) (((cf + ct) / 2 : Nat) : Int) = 1

theorem legal_moves_iff_spec {b : Board} (hwf : WellFormed b) (f t : Nat) :
    (f, t) ∈ legal_moves b ↔ SpecLegal b f t := by
  rw [mem_legal_moves]
  constructor
  · rintro ⟨r, c, hmem, hpeg, d, hd, ⟨b1, b2, b3, b4, hmid, hdest⟩, ht⟩
    obtain ⟨hgeom, hmidr, hmidc⟩ :=
      dir_bridge hd b1 b2 b3 b4 rfl rfl
    have hrteq : ((((r:Int) + 2*d.1).toNat : Nat) : Int) = (r:Int) + 2*d.1 := by omega
    have hcteq : ((((c:Int) + 2*d.2).toNat : Nat) : Int) = (c:Int) + 2*d.2 := by omega
    have hrtlt : ((r:Int) + 2*d.1).toNat < 7 := by omega
    have hctlt : ((c:Int) + 2*d.2).toNat < 7 := by omega
    have hdest' : getI b (((r:Int) + 2*d.1).toNat : Nat) (((c:Int) + 2*d.2).toNat : Nat) = 0 := by
      rw [hrteq, hcteq]; exact hdest
    obtain ⟨i, hihole⟩ := wf_zero_hole hwf hrtlt hctlt hdest'
    have hti : t = i := by rw [ht]; exact posIndexD_of_hole hihole
    refine ⟨r, c, ((r:Int) + 2*d.1).toNat, ((c:Int) + 2*d.2).toNat,
      index_to_pos_char.mpr hmem, index_to_pos_char.mpr (by rw [hti]; exact hihole),
      hpeg, hdest', hgeom, ?_⟩
    rw [hmidr, hmidc]; exact hmid
  · rintro ⟨rf, cf, rt, ct, hf, ht, hpeg, hdest, hgeom, hmid⟩
    have hfm := index_to_pos_char.mp hf
    have htm := index_to_pos_char.mp ht
    obtain ⟨htr, htc⟩ := holes_bounds _ htm
    obtain ⟨d, hd, hdr, hdc⟩ := dir_bridge_rev hgeom
    have b1 : 0 ≤ (rf:Int) + 2*d.1 := by omega
    have b2 : (rf:Int) + 2*d.1 < 7 := by simp only [hdr]; exact_mod_cast htr
    have b3 : 0 ≤ (cf:Int) + 2*d.2 := by omega
    have b4 : (cf:Int) + 2*d.2 < 7 := by simp only [hdc]; exact_mod_cast htc
    have hrt : ((rf:Int) + 2*d.1).toNat = rt := by omega
    have hct : ((cf:Int) + 2*d.2).toNat = ct := by omega
    obtain ⟨hgeom2, hmidr, hmidc⟩ := dir_bridge hd b1 b2 b3 b4 hrt hct
    refine ⟨rf, cf, hfm, hpeg, d, hd, ⟨b1, b2, b3, b4, ?_, ?_⟩, ?_⟩
    · rw [← hmidr, ← hmidc]; exact hmid
    · rw [hdr, hdc]; exact hdest
    · rw [hrt, hct]; exact (posIndexD_of_hole htm).symm

/-! ### The effect of applying a move -/

theorem pegCount_prod (f : Board) :
    pegCount f = ∑ p ∈ (Finset.univ : Finset (Fin 7 × Fin 7)), (if f p.1 p.2 = 1 then 1 else 0) := by
  rw [pegCount, ← Finset.sum_product', Finset.univ_product_univ]

theorem setN_same (b : Board) {r c : Nat} (hr : r < 7) (hc : c < 7) (v : Int) :
    setN b r c v ⟨r, hr⟩ ⟨c, hc⟩ = v := by
  simp [setN]

theorem setN_other (b : Board) {r c : Nat} (v : Int) {i j : Fin 7}
    (h : ¬(i.val = r ∧ j.val = c)) : setN b r c v i j = b i j := by
  simp only [setN, if_neg h]

theorem pegCount_setN (b : Board) {r c : Nat} (hr : r < 7) (hc : c < 7) (v : Int) :
    pegCount (setN b r c v) + (if b ⟨r, hr⟩ ⟨c, hc⟩ = 1 then 1 else 0)
      = pegCount b + (if v = 1 then 1 else 0) := by
  classical
  have hP : ((⟨r, hr⟩, ⟨c, hc⟩) : Fin 7 × Fin 7) ∈ (Finset.univ : Finset (Fin 7 × Fin 7)) :=
    Finset.mem_univ _
  have hA := (Finset.sum_erase_add (Finset.univ : Finset (Fin 7 × Fin 7))
    (fun p => if setN b r c v p.1 p.2 = 1 then (1:Nat) else 0) hP).symm
  have hB := (Finset.sum_erase_add (Finset.univ : Finset (Fin 7 × Fin 7))
    (fun p => if b p.1 p.2 = 1 then (1:Nat) else 0) hP).symm
  have hC : ∑ p ∈ (Finset.univ : Finset (Fin 7 × Fin 7)).erase (⟨r, hr⟩, ⟨c, hc⟩),
      (if setN b r c v p.1 p.2 = 1 then (1:Nat) else 0)
      = ∑ p ∈ (Finset.univ : Finset (Fin 7 × Fin 7)).erase (⟨r, hr⟩, ⟨c, hc⟩),
      (if b p.1 p.2 = 1 then (1:Nat) else 0) := by
    refine Finset.sum_congr rfl (fun p hp => ?_)
    have hne := (Finset.mem_erase.mp hp).1
    rw [setN_other]
    intro hcon
    exact hne (Prod.ext (Fin.ext hcon.1) (Fin.ext hcon.2))
  rw [pegCount_prod, pegCount_prod, hA, hB, hC, setN_same]
  simp only []
  omega

theorem applyMove_eq {b : Board} {f t rf cf rt ct : Nat}
    (hf : index_to_pos f = some (rf, cf)) (ht : index_to_pos t = some (rt, ct)) :
    applyMove b (f, t)
      = setN (setN (setN b rf cf 0) ((rf + rt) / 2) ((cf + ct) / 2) 0) rt ct 1 := by
  simp [applyMove, hf, ht]

theorem move_cells_distinct {rf cf rt ct : Nat}
    (hgeom : (rf = rt ∧ (ct = cf + 2 ∨ cf = ct + 2)) ∨ (cf = ct ∧ (rt = rf + 2 ∨ rf = rt + 2))) :
    ¬(rf = (rf + rt) / 2 ∧ cf = (cf + ct) / 2) ∧
    ¬(rt = (rf + rt) / 2 ∧ ct = (cf + ct) / 2) ∧
    ¬(rf = rt ∧ cf = ct) := by
  rcases hgeom with ⟨h, h2 | h2⟩ | ⟨h, h2 | h2⟩ <;> constructor <;> try constructor
  all_goals omega

theorem pegCount_applyMove {b : Board} (hwf : WellFormed b) {f t : Nat}
    (h : (f, t) ∈ legal_moves b) :
    pegCount (applyMove b (f, t)) + 1 = pegCount b := by
  obtain ⟨rf, cf, rt, ct, hf, ht, hpeg, hdest, hgeom, hmid⟩ :=
    (legal_moves_iff_spec hwf f t).mp h
  obtain ⟨hrf, hcf⟩ : rf < 7 ∧ cf < 7 := holes_bounds _ (index_to_pos_char.mp hf)
  obtain ⟨hrt, hct⟩ : rt < 7 ∧ ct < 7 := holes_bounds _ (index_to_pos_char.mp ht)
  have hmr : (rf + rt) / 2 < 7 := by omega
  have hmc : (cf + ct) / 2 < 7 := by omega
  obtain ⟨hd1, hd2, hd3⟩ := move_cells_distinct hgeom
  rw [applyMove_eq hf ht]
  -- cell values of the three stages
  have hv1 : b ⟨rf, hrf⟩ ⟨cf, hcf⟩ = 1 := by rw [← getI_coe b hrf hcf]; exact hpeg
  have hv2 : setN b rf cf 0 ⟨(rf + rt) / 2, hmr⟩ ⟨(cf + ct) / 2, hmc⟩ = 1 := by
    rw [setN_other b 0 (by simpa using fun a b => hd1 ⟨a.symm, b.symm⟩)]
    rw [← getI_coe b hmr hmc]; exact hmid
  have hv3 : setN (setN b rf cf 0) ((rf + rt) / 2) ((cf + ct) / 2) 0 ⟨rt, hrt⟩ ⟨ct, hct⟩ = 0 := by
    rw [setN_other _ 0 (by simpa using fun a b => hd2 ⟨a, b⟩)]
    rw [setN_other b 0 (by simpa using fun a b => hd3 ⟨a.symm, b.symm⟩)]
    rw [← getI_coe b hrt hct]; exact hdest
  have e1 := pegCount_setN b hrf hcf 0
  have e2 := pegCount_setN (setN b rf cf 0) hmr hmc 0
  have e3 := pegCount_setN (setN (setN b rf cf 0) ((rf + rt) / 2) ((cf + ct) / 2) 0) hrt hct 1
  rw [hv1] at e1
  rw [hv2] at e2
  rw [hv3] at e3
  simp only [if_true, if_pos rfl] at *
  norm_num at e1 e2 e3
  omega

theorem applyMove_invalid {b : Board} (hwf : WellFormed b) {f t : Nat}
    (h : (f, t) ∈ legal_moves b) :
    ∀ r c : Fin 7, applyMove b (f, t) r c = -1 ↔ b r c = -1 := by
  obtain ⟨rf, cf, rt, ct, hf, ht, hpeg, hdest, hgeom, hmid⟩ :=
    (legal_moves_iff_spec hwf f t).mp h
  obtain ⟨hrf, hcf⟩ : rf < 7 ∧ cf < 7 := holes_bounds _ (index_to_pos_char.mp hf)
  obtain ⟨hrt, hct⟩ : rt < 7 ∧ ct < 7 := holes_bounds _ (index_to_pos_char.mp ht)
  have hmr : (rf + rt) / 2 < 7 := by omega
  have hmc : (cf + ct) / 2 < 7 := by omega
  intro r c
  rw [applyMove_eq hf ht]
  by_cases h3 : r.val = rt ∧ c.val = ct
  · have hr : r = ⟨rt, hrt⟩ := Fin.ext h3.1
    have hc : c = ⟨ct, hct⟩ := Fin.ext h3.2
    rw [hr, hc, setN_same]
    have : b ⟨rt, hrt⟩ ⟨ct, hct⟩ = 0 := by rw [← getI_coe b hrt hct]; exact hdest
    rw [this]
    norm_num
  · rw [setN_other _ 1 h3]
    by_cases h2 : r.val = (rf + rt) / 2 ∧ c.val = (cf + ct) / 2
    · have hr : r = ⟨(rf + rt) / 2, hmr⟩ := Fin.ext h2.1
      have hc : c = ⟨(cf + ct) / 2, hmc⟩ := Fin.ext h2.2
      rw [hr, hc, setN_same]
      have : b ⟨(rf + rt) / 2, hmr⟩ ⟨(cf + ct) / 2, hmc⟩ = 1 := by
        rw [← getI_coe b hmr hmc]; exact hmid
      rw [this]
      norm_num
    · rw [setN_other _ 0 h2]
      by_cases h1 : r.val = rf ∧ c.val = cf
      · have hr : r = ⟨rf, hrf⟩ := Fin.ext h1.1
        have hc : c = ⟨cf, hcf⟩ := Fin.ext h1.2
        rw [hr, hc, setN_same]
        have : b ⟨rf, hrf⟩ ⟨cf, hcf⟩ = 1 := by rw [← getI_coe b hrf hcf]; exact hpeg
        rw [this]
        norm_num
      · rw [setN_other _ 0 h1]

theorem serialize_flatten_length (b : Board) : (serialize b).flatten.length = 49 := by
  simp only [serialize, List.length_flatten, List.map_map]
  have : (List.map (List.length ∘ fun r => List.map (fun c => b r c) (List.finRange 7))
      (List.finRange 7)) = List.map (fun _ => 7) (List.finRange 7) := by
    refine List.map_congr_left (fun r _ => ?_)
    simp
  rw [this]
  rfl

theorem wf_applyMove {b : Board} (hwf : WellFormed b) {f t : Nat}
    (h : (f, t) ∈ legal_moves b) : WellFormed (applyMove b (f, t)) := by
  have hinv := applyMove_invalid hwf h
  obtain ⟨rf, cf, rt, ct, hf, ht, hpeg, hdest, hgeom, hmid⟩ :=
    (legal_moves_iff_spec hwf f t).mp h
  obtain ⟨hrf, hcf⟩ : rf < 7 ∧ cf < 7 := holes_bounds _ (index_to_pos_char.mp hf)
  obtain ⟨hrt, hct⟩ : rt < 7 ∧ ct < 7 := holes_bounds _ (index_to_pos_char.mp ht)
  have hmr : (rf + rt) / 2 < 7 := by omega
  have hmc : (cf + ct) / 2 < 7 := by omega
  intro r c
  have hb := hwf r c
  by_cases hh : isHole r.val c.val
  · rw [if_pos hh] at hb ⊢
    rw [applyMove_eq hf ht]
    by_cases h3 : r.val = rt ∧ c.val = ct
    · rw [(Fin.ext h3.1 : r = ⟨rt, hrt⟩), (Fin.ext h3.2 : c = ⟨ct, hct⟩), setN_same]
      right; rfl
    · rw [setN_other _ 1 h3]
      by_cases h2 : r.val = (rf + rt) / 2 ∧ c.val = (cf + ct) / 2
      · rw [(Fin.ext h2.1 : r = ⟨(rf + rt) / 2, hmr⟩),
          (Fin.ext h2.2 : c = ⟨(cf + ct) / 2, hmc⟩), setN_same]
        left; rfl
      · rw [setN_other _ 0 h2]
        by_cases h1 : r.val = rf ∧ c.val = cf
        · rw [(Fin.ext h1.1 : r = ⟨rf, hrf⟩), (Fin.ext h1.2 : c = ⟨cf, hcf⟩), setN_same]
          left; rfl
        · rw [setN_other _ 0 h1]; exact hb
  · rw [if_neg hh] at hb ⊢
    exact (hinv r c).mpr hb

/-! ### Claim C1 -/

/-- Claim C1: for every well-formed board, the move enumeration is exactly
the legal moves: `(f, t)` is in `legal_moves b` iff `f` holds a peg, `t`
holds an empty hole, the two holes are exactly two cells apart along one
grid axis, and the cell directly between them holds a peg. -/
theorem legal_move_enumeration_exact {b : Board} (hwf : WellFormed b) (f t : Nat) :
    (f, t) ∈ legal_moves b ↔ SpecLegal b f t :=
  legal_moves_iff_spec hwf f t

/-- Witness for C1 at the initial board and the first legal move. -/
theorem legal_move_enumeration_exact_witness :
    WellFormed initBoard ∧ ((5, 17) ∈ legal_moves initBoard ↔ SpecLegal initBoard 5 17) :=
  ⟨by decide, legal_move_enumeration_exact (by decide) 5 17⟩

/-! ### Claim C2 -/

/-- Claim C2: for every well-formed board `b` and every move in
`legal_moves b`, the board produced by applying the move has exactly one
fewer peg than `b`, the same total number of cells, and the same set of
`Invalid` (`-1`) cells. -/
theorem move_application_effect {b : Board} (hwf : WellFormed b) {m : Move}
    (hm : m ∈ legal_moves b) :
    pegCount (applyMove b m) + 1 = pegCount b ∧
    (serialize (applyMove b m)).flatten.length = (serialize b).flatten.length ∧
    (∀ r c : Fin 7, applyMove b m r c = -1 ↔ b r c = -1) := by
  obtain ⟨f, t⟩ := m
  exact ⟨pegCount_applyMove hwf hm,
    by rw [serialize_flatten_length, serialize_flatten_length],
    applyMove_invalid hwf hm⟩

/-- Witness for C2 at the initial board and the first legal move. -/
theorem move_application_effect_witness :
    WellFormed initBoard ∧ (5, 17) ∈ legal_moves initBoard ∧
      (pegCount (applyMove initBoard (5, 17)) + 1 = pegCount initBoard ∧
       (serialize (applyMove initBoard (5, 17))).flatten.length
         = (serialize initBoard).flatten.length ∧
       (∀ r c : Fin 7, applyMove initBoard (5, 17) r c = -1 ↔ initBoard r c = -1)) :=
  ⟨by decide, by decide, move_application_effect (by decide) (by decide)⟩

/-! ### Claim C8: ordering of the enumerated moves -/

/-- A well-formed board with pegs at holes 8 `(2,1)`, 9 `(2,2)` and 16
`(3,2)` and every other hole empty; hole 9 can jump both down (to hole 23)
and left (to hole 7). -/
def cexBoardC8 : Board := fun r c =>
  if (r.val, c.val) = (2, 1) ∨ (r.val, c.val) = (2, 2) ∨ (r.val, c.val) = (3, 2) then 1
  else if isHole r.val c.val then 0 else -1

/-- Rank of a jump direction in the fixed scan order of `DIRECTIONS`:
up `(-1,0)` = 0, down `(1,0)` = 1, left `(0,-1)` = 2, right `(0,1)` = 3. -/
def rankD (d : Int × Int) : Nat :=
  if d.1 < 0 then 0 else if 0 < d.1 then 1 else if d.2 < 0 then 2 else 3

/-- The direction rank of a move, recovered from the grid positions of its
two endpoints (0 = up, 1 = down, 2 = left, 3 = right). -/
def moveRank (m : Move) : Nat :=
  match index_to_pos m.1, index_to_pos m.2 with
  | some rc1, some rc2 =>
    if rc2.1 < rc1.1 then 0
    else if rc1.1 < rc2.1 then 1
    else if rc2.2 < rc1.2 then 2 else 3
  | _, _ => 0

theorem emit_rank {b : Board} (hwf : WellFormed b) {i r c : Nat} (hmem : (i, r, c) ∈ holes)
    {d : Int × Int} (hd : d ∈ DIRECTIONS)
    (h1 : 0 ≤ (r:Int) + 2*d.1) (h2 : (r:Int) + 2*d.1 < 7)
    (h3 : 0 ≤ (c:Int) + 2*d.2) (h4 : (c:Int) + 2*d.2 < 7)
    (hdest : getI b ((r:Int)+2*d.1) ((c:Int)+2*d.2) = 0) :
    moveRank (i, posIndexD (((r:Int)+2*d.1).toNat, ((c:Int)+2*d.2).toNat)) = rankD d := by
  have hrtlt : ((r:Int) + 2*d.1).toNat < 7 := by omega
  have hctlt : ((c:Int) + 2*d.2).toNat < 7 := by omega
  have hdest' : getI b ((((r:Int) + 2*d.1).toNat : Nat) : Int)
      ((((c:Int) + 2*d.2).toNat : Nat) : Int) = 0 := by
    have e1 : ((((r:Int) + 2*d.1).toNat : Nat) : Int) = (r:Int) + 2*d.1 := by omega
    have e2 : ((((c:Int) + 2*d.2).toNat : Nat) : Int) = (c:Int) + 2*d.2 := by omega
    rw [e1, e2]; exact hdest
  obtain ⟨j, hjhole⟩ := wf_zero_hole hwf hrtlt hctlt hdest'
  have hj := posIndexD_of_hole hjhole
  rw [hj]
  have hbnd := holes_bounds _ hmem
  unfold moveRank
  rw [index_to_pos_char.mpr hmem, index_to_pos_char.mpr hjhole]
  fin_cases hd <;> simp only [rankD] <;> norm_num <;> omega

theorem holes_fst_lt : holes.Pairwise (fun h1 h2 => h1.1 < h2.1) := by decide

/-- Claim C8 (amended): for every well-formed board, `legal_moves` is
sorted in ascending order of the `from` hole id, and among moves sharing
the same `from`, in the fixed direction-scan order up, down, left, right
(not in ascending order of the `to` hole id). -/
theorem legal_moves_order_amended {b : Board} (hwf : WellFormed b) :
    (legal_moves b).Pairwise
      (fun m1 m2 => m1.1 < m2.1 ∨ (m1.1 = m2.1 ∧ moveRank m1 < moveRank m2)) := by
  rw [legal_moves, List.pairwise_flatMap]
  constructor
  · intro h hmem
    by_cases hpeg : getI b h.2.1 h.2.2 ≠ 1
    · rw [if_pos hpeg]; exact List.Pairwise.nil
    · rw [if_neg hpeg]
      rw [List.pairwise_filterMap]
      have hmem' : (h.1, h.2.1, h.2.2) ∈ holes := by simpa using hmem
      have key : ∀ d ∈ DIRECTIONS, ∀ m : Move,
          (if 0 ≤ (h.2.1:Int) + 2*d.1 ∧ (h.2.1:Int) + 2*d.1 < 7 ∧
            0 ≤ (h.2.2:Int) + 2*d.2 ∧ (h.2.2:Int) + 2*d.2 < 7 ∧
            getI b ((h.2.1:Int)+d.1) ((h.2.2:Int)+d.2) = 1 ∧
            getI b ((h.2.1:Int)+2*d.1) ((h.2.2:Int)+2*d.2) = 0 then
          some (h.1, posIndexD (((h.2.1:Int)+2*d.1).toNat, ((h.2.2:Int)+2*d.2).toNat))
          else none) = some m → m.1 = h.1 ∧ moveRank m = rankD d := by
        intro d hd m hm
        split at hm
        · rename_i hcond
          obtain ⟨b1, b2, b3, b4, hmid, hdst⟩ := hcond
          injection hm with hm
          rw [← hm]
          exact ⟨rfl, emit_rank hwf hmem' hd b1 b2 b3 b4 hdst⟩
        · exact absurd hm (by simp)
      have hpw : DIRECTIONS.Pairwise (fun d1 d2 => rankD d1 < rankD d2) := by decide
      refine List.Pairwise.imp_of_mem ?_ hpw
      intro d1 d2 hd1 hd2 hrlt x hx y hy
      simp only at hx hy
      obtain ⟨hx1, hx2⟩ := key d1 hd1 x hx
      obtain ⟨hy1, hy2⟩ := key d2 hd2 y hy
      right
      exact ⟨by rw [hx1, hy1], by rw [hx2, hy2]; exact hrlt⟩
  · refine List.Pairwise.imp_of_mem ?_ holes_fst_lt
    intro h1 h2 hm1 hm2 hlt x hx y hy
    by_cases hp1 : getI b h1.2.1 h1.2.2 ≠ 1
    · rw [if_pos hp1] at hx; simp at hx
    · by_cases hp2 : getI b h2.2.1 h2.2.2 ≠ 1
      · rw [if_pos hp2] at hy; simp at hy
      · rw [if_neg hp1] at hx
        rw [if_neg hp2] at hy
        rw [List.mem_filterMap] at hx hy
        obtain ⟨d1, _, he1⟩ := hx
        obtain ⟨d2, _, he2⟩ := hy
        left
        simp only at he1 he2
        split at he1
        · split at he2
          · injection he1 with he1
            injection he2 with he2
            rw [← he1, ← he2]
            exact hlt
          · exact absurd he2 (by simp)
        · exact absurd he1 (by simp)

/-- Claim C8 counterexample: on `cexBoardC8` the enumeration emits
`(9, 23)` (a down-jump) before `(9, 7)` (a left-jump), so the sequence is
not sorted by ascending `to` within equal `from`. -/
theorem legal_moves_to_order_counterexample :
    legal_moves cexBoardC8 = [(8, 10), (9, 23), (9, 7), (16, 4)] ∧
    ¬ (legal_moves cexBoardC8).Pairwise
        (fun m1 m2 => m1.1 < m2.1 ∨ (m1.1 = m2.1 ∧ m1.2 ≤ m2.2)) := by
  constructor
  · decide
  · decide

/-- Witness for the amended C8 at the initial board. -/
theorem legal_moves_order_amended_witness :
    WellFormed initBoard ∧
      (legal_moves initBoard).Pairwise
        (fun m1 m2 => m1.1 < m2.1 ∨ (m1.1 = m2.1 ∧ moveRank m1 < moveRank m2)) :=
  ⟨by decide, legal_moves_order_amended (by decide)⟩

/-! ### Claim C10: the interactive legality checks -/

/-- Embedding of `is_valid_move` from `soloT2.py`: reject unknown hole ids, require a peg
at `frm` and an empty hole at `to`, require the endpoints to lie exactly
two cells apart along one grid axis, and require a peg on the cell between
them (computed as `r1 + dr // 2` resp. `c1 + dc // 2`). -/
def is_valid_move (b : Board) (frm tg : Nat) : Bool :=
  match index_to_pos frm, index_to_pos tg with
  | some rc1, some rc2 =>
    if getI b rc1.1 rc1.2 ≠ 1 ∨ getI b rc2.1 rc2.2 ≠ 0 then false
    else
      let dr : Int := (rc2.1 : Int) - (rc1.1 : Int)
      let dc : Int := (rc2.2 : Int) - (rc1.2 : Int)
      if dr.natAbs = 2 ∧ dc = 0 then
        decide (getI b ((rc1.1 : Int) + dr / 2) (rc1.2 : Int) = 1)
      else if dc.natAbs = 2 ∧ dr = 0 then
        decide (getI b (rc1.1 : Int) ((rc1.2 : Int) + dc / 2) = 1)
      else false
  | _, _ => false

theorem is_valid_move_iff_spec {b : Board} (frm tg : Nat) :
    is_valid_move b frm tg = true ↔ SpecLegal b frm tg := by
  unfold is_valid_move SpecLegal
  cases hf : index_to_pos frm with
  | none => simp [hf]
  | some rc1 =>
    cases ht : index_to_pos tg with
    | none => simp [hf, ht]
    | some rc2 =>
      obtain ⟨r1, c1⟩ := rc1
      obtain ⟨r2, c2⟩ := rc2
      simp only [hf, ht, Option.some.injEq, Prod.mk.injEq]
      constructor
      · intro h
        split at h
        · exact absurd h (by simp)
        · rename_i hvals
          push_neg at hvals
          refine ⟨r1, c1, r2, c2, ⟨rfl, rfl⟩, ⟨rfl, rfl⟩, hvals.1, hvals.2, ?_⟩
          split at h
          · rename_i hgeo
            have hd2 : (r2:Int) - r1 = 2 ∨ (r2:Int) - r1 = -2 := by
              rcases hgeo with ⟨ha, _⟩; omega
            have hcc : c1 = c2 := by rcases hgeo with ⟨_, hb⟩; omega
            rcases hd2 with hd2 | hd2
            · have hr2 : r2 = r1 + 2 := by omega
              refine ⟨Or.inr ⟨hcc, Or.inl hr2⟩, ?_⟩
              rw [hd2] at h
              norm_num at h
              have e1 : ((r1:Int)) + 1 = (((r1 + r2) / 2 : Nat) : Int) := by omega
              have e2 : ((c1:Int)) = (((c1 + c2) / 2 : Nat) : Int) := by omega
              rw [← e1, ← e2]
              exact h
            · have hr2 : r1 = r2 + 2 := by omega
              refine ⟨Or.inr ⟨hcc, Or.inr hr2⟩, ?_⟩
              rw [hd2] at h
              norm_num at h
              have e1 : ((r1:Int)) + -1 = (((r1 + r2) / 2 : Nat) : Int) := by omega
              have e2 : ((c1:Int)) = (((c1 + c2) / 2 : Nat) : Int) := by omega
              rw [← e1, ← e2]
              exact h
          · split at h
            · rename_i hgeo2
              have hd2 : (c2:Int) - c1 = 2 ∨ (c2:Int) - c1 = -2 := by
                rcases hgeo2 with ⟨ha, _⟩; omega
              have hrr : r1 = r2 := by rcases hgeo2 with ⟨_, hb⟩; omega
              rcases hd2 with hd2 | hd2
              · have hc2 : c2 = c1 + 2 := by omega
                refine ⟨Or.inl ⟨hrr, Or.inl hc2⟩, ?_⟩
                rw [hd2] at h
                norm_num at h
                have e1 : ((r1:Int)) = (((r1 + r2) / 2 : Nat) : Int) := by omega
                have e2 : ((c1:Int)) + 1 = (((c1 + c2) / 2 : Nat) : Int) := by omega
                rw [← e1, ← e2]
                exact h
              · have hc2 : c1 = c2 + 2 := by omega
                refine ⟨Or.inl ⟨hrr, Or.inr hc2⟩, ?_⟩
                rw [hd2] at h
                norm_num at h
                have e1 : ((r1:Int)) = (((r1 + r2) / 2 : Nat) : Int) := by omega
                have e2 : ((c1:Int)) + -1 = (((c1 + c2) / 2 : Nat) : Int) := by omega
                rw [← e1, ← e2]
                exact h
            · exact absurd h (by simp)
      · rintro ⟨rf, cf, rt, ct, ⟨hrf, hcf⟩, ⟨hrt, hct⟩, hpeg, hdest, hgeom, hmid⟩
        subst hrf; subst hcf; subst hrt; subst hct
        rw [if_neg (by push_neg; exact ⟨hpeg, hdest⟩)]
        rcases hgeom with ⟨hrr, hcc | hcc⟩ | ⟨hcc, hrr | hrr⟩
        · rw [if_neg (by omega), if_pos (by constructor <;> omega)]
          have hd2 : (c2:Int) - c1 = 2 := by omega
          rw [hd2]
          norm_num
          have e2 : ((c1:Int)) + 1 = (((c1 + c2) / 2 : Nat) : Int) := by omega
          have e1 : ((r1:Int)) = (((r1 + r2) / 2 : Nat) : Int) := by omega
          rw [← e1, ← e2] at hmid
          exact hmid
        · rw [if_neg (by omega), if_pos (by constructor <;> omega)]
          have hd2 : (c2:Int) - c1 = -2 := by omega
          rw [hd2]
          norm_num
          have e2 : ((c1:Int)) + -1 = (((c1 + c2) / 2 : Nat) : Int) := by omega
          have e1 : ((r1:Int)) = (((r1 + r2) / 2 : Nat) : Int) := by omega
          rw [← e1, ← e2] at hmid
          exact hmid
        · rw [if_pos (by constructor <;> omega)]
          have hd2 : (r2:Int) - r1 = 2 := by omega
          rw [hd2]
          norm_num
          have e1 : ((r1:Int)) + 1 = (((r1 + r2) / 2 : Nat) : Int) := by omega
          have e2 : ((c1:Int)) = (((c1 + c2) / 2 : Nat) : Int) := by omega
          rw [← e1, ← e2] at hmid
          exact hmid
        · rw [if_pos (by constructor <;> omega)]
          have hd2 : (r2:Int) - r1 = -2 := by omega
          rw [hd2]
          norm_num
          have e1 : ((r1:Int)) + -1 = (((r1 + r2) / 2 : Nat) : Int) := by omega
          have e2 : ((c1:Int)) = (((c1 + c2) / 2 : Nat) : Int) := by omega
          rw [← e1, ← e2] at hmid
          exact hmid

/-- Integer-coordinate position lookup: the `pos_to_index` dictionary is
keyed by `(r, c)` tuples of natural coordinates, so positions with a
negative coordinate are simply absent. -/
def pos_to_indexZ (p : Int × Int) : Option Nat :=
  if 0 ≤ p.1 ∧ 0 ≤ p.2 then pos_to_index (p.1.toNat, p.2.toNat) else none

/-- Embedding of `legal_moves` from `soloT.py`: `state` maps each hole id to peg presence;
the scan covers the `state` dictionary items, which are exactly the holes.
A move needs the jumped and destination positions to be holes, a peg on
the jumped hole, and no peg on the destination. -/
def legal_movesT (s : Nat → Bool) : List Move :=
  holes.flatMap (fun h =>
    if ¬ s h.1 then []
    else
      DIRECTIONS.filterMap (fun d =>
        match pos_to_indexZ ((h.2.1:Int) + d.1, (h.2.2:Int) + d.2),
              pos_to_indexZ ((h.2.1:Int) + 2*d.1, (h.2.2:Int) + 2*d.2) with
        | some midIdx, some destIdx =>
            if s midIdx ∧ ¬ s destIdx then some (h.1, destIdx) else none
        | _, _ => none))

/-- Embedding of `is_valid_move` from `soloT.py`: membership of both ids in `state` (its
keys are exactly the hole ids), peg at `frm`, no peg at `to`, endpoints
two apart along one axis, and a peg on the jumped hole (which must be a
known position). -/
def is_valid_moveT (s : Nat → Bool) (frm tg : Nat) : Bool :=
  match index_to_pos frm, index_to_pos tg with
  | some rc1, some rc2 =>
    if ¬ s frm ∨ s tg then false
    else
      let dr : Int := (rc2.1 : Int) - (rc1.1 : Int)
      let dc : Int := (rc2.2 : Int) - (rc1.2 : Int)
      if dr.natAbs = 2 ∧ dc = 0 then
        match pos_to_indexZ ((rc1.1 : Int) + dr / 2, (rc1.2 : Int)) with
        | some midIdx => s midIdx
        | none => false
      else if dc.natAbs = 2 ∧ dr = 0 then
        match pos_to_indexZ ((rc1.1 : Int), (rc1.2 : Int) + dc / 2) with
        | some midIdx => s midIdx
        | none => false
      else false
  | _, _ => false

theorem mem_legal_movesT {s : Nat → Bool} {f t : Nat} :
    (f, t) ∈ legal_movesT s ↔
      ∃ r c, (f, r, c) ∈ holes ∧ s f ∧
        ∃ d ∈ DIRECTIONS, ∃ mi di,
          pos_to_indexZ ((r:Int) + d.1, (c:Int) + d.2) = some mi ∧
          pos_to_indexZ ((r:Int) + 2*d.1, (c:Int) + 2*d.2) = some di ∧
          s mi = true ∧ s di = false ∧ t = di := by
  constructor
  · intro h
    rw [legal_movesT, List.mem_flatMap] at h
    obtain ⟨hh, hmem, hin⟩ := h
    by_cases hocc : ¬ s hh.1
    · rw [if_pos hocc] at hin; simp at hin
    · rw [if_neg hocc] at hin
      rw [List.mem_filterMap] at hin
      obtain ⟨d, hd, heq⟩ := hin
      split at heq
      · rename_i mi di hmi hdi
        split at heq
        · rename_i hcond
          injection heq with heq1
          injection heq1 with hf ht
          subst hf
          refine ⟨hh.2.1, hh.2.2, by simpa using hmem, by simpa using hocc,
            d, hd, mi, di, hmi, hdi, by simpa using hcond.1, by simpa using hcond.2, ht.symm⟩
        · exact absurd heq (by simp)
      · exact absurd heq (by simp)
  · rintro ⟨r, c, hmem, hocc, d, hd, mi, di, hmi, hdi, hsmi, hsdi, ht⟩
    rw [legal_movesT, List.mem_flatMap]
    refine ⟨(f, r, c), hmem, ?_⟩
    rw [if_neg (by simpa using hocc)]
    rw [List.mem_filterMap]
    refine ⟨d, hd, ?_⟩
    subst ht
    simp [hmi, hdi, hsmi, hsdi]

theorem holes_key_unique {i : Nat} {p q : Nat × Nat}
    (hp : (i, p) ∈ holes) (hq : (i, q) ∈ holes) : p = q := by
  have h1 := index_to_pos_char.mpr hp
  have h2 := index_to_pos_char.mpr hq
  rw [h1] at h2
  exact (Option.some.injEq _ _).mp h2

theorem is_valid_moveT_some {s : Nat → Bool} {frm tg r1 c1 r2 c2 : Nat}
    (hf : index_to_pos frm = some (r1, c1)) (ht : index_to_pos tg = some (r2, c2)) :
    is_valid_moveT s frm tg =
      (if ¬ s frm ∨ s tg then false
       else
         if ((r2:Int) - (r1:Int)).natAbs = 2 ∧ (c2:Int) - (c1:Int) = 0 then
           match pos_to_indexZ ((r1:Int) + ((r2:Int) - (r1:Int)) / 2, (c1:Int)) with
           | some midIdx => s midIdx
           | none => false
         else if ((c2:Int) - (c1:Int)).natAbs = 2 ∧ (r2:Int) - (r1:Int) = 0 then
           match pos_to_indexZ ((r1:Int), (c1:Int) + ((c2:Int) - (c1:Int)) / 2) with
           | some midIdx => s midIdx
           | none => false
         else false) := by
  unfold is_valid_moveT
  rw [hf, ht]

theorem is_valid_moveT_iff (s : Nat → Bool) (frm tg : Nat) :
    is_valid_moveT s frm tg = true ↔ (frm, tg) ∈ legal_movesT s := by
  rw [mem_legal_movesT]
  cases hf : index_to_pos frm with
  | none =>
    have hlhs : is_valid_moveT s frm tg = false := by
      unfold is_valid_moveT
      rw [hf]
    rw [hlhs]
    simp only [Bool.false_eq_true, false_iff]
    rintro ⟨r, c, hmem, _⟩
    exact absurd (index_to_pos_char.mpr hmem) (by simp [hf])
  | some rc1 =>
    cases ht : index_to_pos tg with
    | none =>
      have hlhs : is_valid_moveT s frm tg = false := by
        unfold is_valid_moveT
        rw [hf, ht]
      rw [hlhs]
      simp only [Bool.false_eq_true, false_iff]
      rintro ⟨r, c, hmem, hocc, d, hd, mi, di, hmi, hdi, hsmi, hsdi, htdi⟩
      rw [pos_to_indexZ] at hdi
      split at hdi
      · have hmem2 := pos_to_index_char.mp hdi
        have hip := index_to_pos_char.mpr hmem2
        rw [← htdi] at hip
        rw [ht] at hip
        exact absurd hip (by simp)
      · exact absurd hdi (by simp)
    | some rc2 =>
      obtain ⟨r1, c1⟩ := rc1
      obtain ⟨r2, c2⟩ := rc2
      have hfm := index_to_pos_char.mp hf
      have htm := index_to_pos_char.mp ht
      obtain ⟨hb1, hb2⟩ : r1 < 7 ∧ c1 < 7 := holes_bounds _ hfm
      obtain ⟨hb3, hb4⟩ : r2 < 7 ∧ c2 < 7 := holes_bounds _ htm
      rw [is_valid_moveT_some hf ht]
      constructor
      · intro h
        split at h
        · exact absurd h (by simp)
        · rename_i hvals
          push_neg at hvals
          obtain ⟨hsf, hstg⟩ := hvals
          refine ⟨r1, c1, hfm, by simpa using hsf, ?_⟩
          split at h
          · rename_i hgeo
            have hd2 : (r2:Int) - r1 = 2 ∨ (r2:Int) - r1 = -2 := by
              rcases hgeo with ⟨ha, _⟩; omega
            have hcc : (c2:Int) - c1 = 0 := hgeo.2
            split at h
            · rename_i mi hmi
              rcases hd2 with hd2 | hd2
              · refine ⟨(1, 0), by simp [DIRECTIONS], mi, tg, ?_, ?_, h, by simpa using hstg, rfl⟩
                · rw [← hmi]
                  congr 1
                  simp only [Prod.mk.injEq]
                  constructor <;> omega
                · rw [pos_to_indexZ, if_pos (by constructor <;> [omega; omega])]
                  have heq : ((((r1:Int) + 2 * (1:Int)).toNat : Nat), (((c1:Int) + 2 * (0:Int)).toNat : Nat)) = (r2, c2) := by
                    simp only [Prod.mk.injEq]
                    constructor <;> omega
                  rw [heq]
                  exact pos_to_index_char.mpr htm
              · refine ⟨(-1, 0), by simp [DIRECTIONS], mi, tg, ?_, ?_, h, by simpa using hstg, rfl⟩
                · rw [← hmi]
                  congr 1
                  simp only [Prod.mk.injEq]
                  constructor <;> omega
                · rw [pos_to_indexZ, if_pos (by constructor <;> [omega; omega])]
                  have heq : ((((r1:Int) + 2 * (-1:Int)).toNat : Nat), (((c1:Int) + 2 * (0:Int)).toNat : Nat)) = (r2, c2) := by
                    simp only [Prod.mk.injEq]
                    constructor <;> omega
                  rw [heq]
                  exact pos_to_index_char.mpr htm
            · exact absurd h (by simp)
          · split at h
            · rename_i hgeo2
              have hd2 : (c2:Int) - c1 = 2 ∨ (c2:Int) - c1 = -2 := by
                rcases hgeo2 with ⟨ha, _⟩; omega
              have hrr : (r2:Int) - r1 = 0 := hgeo2.2
              split at h
              · rename_i mi hmi
                rcases hd2 with hd2 | hd2
                · refine ⟨(0, 1), by simp [DIRECTIONS], mi, tg, ?_, ?_, h, by simpa using hstg, rfl⟩
                  · rw [← hmi]
                    congr 1
                    simp only [Prod.mk.injEq]
                    constructor <;> omega
                  · rw [pos_to_indexZ, if_pos (by constructor <;> [omega; omega])]
                    have heq : ((((r1:Int) + 2 * (0:Int)).toNat : Nat), (((c1:Int) + 2 * (1:Int)).toNat : Nat)) = (r2, c2) := by
                      simp only [Prod.mk.injEq]
                      constructor <;> omega
                    rw [heq]
                    exact pos_to_index_char.mpr htm
                · refine ⟨(0, -1), by simp [DIRECTIONS], mi, tg, ?_, ?_, h, by simpa using hstg, rfl⟩
                  · rw [← hmi]
                    congr 1
                    simp only [Prod.mk.injEq]
                    constructor <;> omega
                  · rw [pos_to_indexZ, if_pos (by constructor <;> [omega; omega])]
                    have heq : ((((r1:Int) + 2 * (0:Int)).toNat : Nat), (((c1:Int) + 2 * (-1:Int)).toNat : Nat)) = (r2, c2) := by
                      simp only [Prod.mk.injEq]
                      constructor <;> omega
                    rw [heq]
                    exact pos_to_index_char.mpr htm
              · exact absurd h (by simp)
            · exact absurd h (by simp)
      · rintro ⟨r, c, hmem, hocc, d, hd, mi, di, hmi, hdi, hsmi, hsdi, htdi⟩
        have hrc : (r, c) = (r1, c1) := holes_key_unique hmem hfm
        rw [Prod.mk.injEq] at hrc
        obtain ⟨hr, hc⟩ := hrc
        subst hr; subst hc
        rw [pos_to_indexZ] at hdi
        split at hdi
        · rename_i hnn
          have hdihole := pos_to_index_char.mp hdi
          have hip : index_to_pos di
              = some ((((r:Int) + 2 * d.1).toNat : Nat), (((c:Int) + 2 * d.2).toNat : Nat)) :=
            index_to_pos_char.mpr hdihole
          rw [← htdi] at hip
          rw [ht] at hip
          have hdd := (Option.some.injEq _ _).mp hip
          rw [Prod.mk.injEq] at hdd
          obtain ⟨hdr2, hdc2⟩ := hdd
          rw [if_neg (by push_neg; exact ⟨by simpa using hocc, by rw [htdi]; simp [hsdi]⟩)]
          fin_cases hd
          · rw [if_pos (by constructor <;> omega)]
            have hmid2 : ((r:Int) + ((r2:Int) - (r:Int)) / 2, (c:Int)) = ((r:Int) + (-1:Int), (c:Int) + (0:Int)) := by
              have h2 : (r2:Int) - r = -2 := by omega
              rw [h2]
              norm_num
            rw [hmid2, hmi]
            exact hsmi
          · rw [if_pos (by constructor <;> omega)]
            have hmid2 : ((r:Int) + ((r2:Int) - (r:Int)) / 2, (c:Int)) = ((r:Int) + (1:Int), (c:Int) + (0:Int)) := by
              have h2 : (r2:Int) - r = 2 := by omega
              rw [h2]
              norm_num
            rw [hmid2, hmi]
            exact hsmi
          · rw [if_neg (by omega), if_pos (by constructor <;> omega)]
            have hmid2 : ((r:Int), (c:Int) + ((c2:Int) - (c:Int)) / 2) = ((r:Int) + (0:Int), (c:Int) + (-1:Int)) := by
              have h2 : (c2:Int) - c = -2 := by omega
              rw [h2]
              norm_num
            rw [hmid2, hmi]
            exact hsmi
          · rw [if_neg (by omega), if_pos (by constructor <;> omega)]
            have hmid2 : ((r:Int), (c:Int) + ((c2:Int) - (c:Int)) / 2) = ((r:Int) + (0:Int), (c:Int) + (1:Int)) := by
              have h2 : (c2:Int) - c = 2 := by omega
              rw [h2]
              norm_num
            rw [hmid2, hmi]
            exact hsmi
        · exact absurd hdi (by simp)

/-- Claim C10: the interactive legality check agrees exactly with move
enumeration, in both interactive variants: `is_valid_move(frm, to)`
returns `True` iff `(frm, to)` is an element of `legal_moves()` on the
same state (`soloT2.py` over the grid board, for well-formed boards;
`soloT.py` over the hole-occupancy dictionary, for every state). -/
theorem interactive_check_agrees :
    (∀ b : Board, WellFormed b → ∀ frm tg : Nat,
      (is_valid_move b frm tg = true ↔ (frm, tg) ∈ legal_moves b)) ∧
    (∀ s : Nat → Bool, ∀ frm tg : Nat,
      (is_valid_moveT s frm tg = true ↔ (frm, tg) ∈ legal_movesT s)) := by
  constructor
  · intro b hwf frm tg
    rw [is_valid_move_iff_spec, legal_moves_iff_spec hwf]
  · intro s frm tg
    exact is_valid_moveT_iff s frm tg

/-- Witness for C10 at the initial board (grid variant) and a two-peg
occupancy state (dictionary variant). -/
theorem interactive_check_agrees_witness :
    (WellFormed initBoard ∧
      (is_valid_move initBoard 5 17 = true ↔ (5, 17) ∈ legal_moves initBoard)) ∧
    (is_valid_moveT (fun i => decide (i = 15 ∨ i = 16)) 15 17 = true ↔
      (15, 17) ∈ legal_movesT (fun i => decide (i = 15 ∨ i = 16))) :=
  ⟨⟨by decide, interactive_check_agrees.1 initBoard (by decide) 5 17⟩,
   interactive_check_agrees.2 (fun i => decide (i = 15 ∨ i = 16)) 15 17⟩

/-! ### Claims C3: purity of child generation -/

theorem mem_gss {b : Board} {f t : Nat} {nb : Board} :
    (f, t, nb) ∈ generate_successor_states b ↔
      ∃ r c, (f, r, c) ∈ holes ∧ getI b r c = 1 ∧
        ∃ d ∈ DIRECTIONS,
          (0 ≤ (r:Int) + 2*d.1 ∧ (r:Int) + 2*d.1 < 7 ∧ 0 ≤ (c:Int) + 2*d.2 ∧ (c:Int) + 2*d.2 < 7 ∧
            getI b ((r:Int)+d.1) ((c:Int)+d.2) = 1 ∧ getI b ((r:Int)+2*d.1) ((c:Int)+2*d.2) = 0) ∧
          t = posIndexD (((r:Int)+2*d.1).toNat, ((c:Int)+2*d.2).toNat) ∧
          nb = setN (setN (setN b r c 0) ((r:Int)+d.1).toNat ((c:Int)+d.2).toNat 0)
            ((r:Int)+2*d.1).toNat ((c:Int)+2*d.2).toNat 1 := by
  constructor
  · intro h
    rw [generate_successor_states, List.mem_flatMap] at h
    obtain ⟨hh, hmem, hin⟩ := h
    by_cases hpeg : getI b hh.2.1 hh.2.2 ≠ 1
    · rw [if_pos hpeg] at hin; simp at hin
    · rw [if_neg hpeg] at hin
      push_neg at hpeg
      rw [List.mem_filterMap] at hin
      obtain ⟨d, hd, heq⟩ := hin
      simp only at heq
      split at heq
      · rename_i hcond
        injection heq with heq1
        injection heq1 with hf hrest
        injection hrest with ht hnb
        refine ⟨hh.2.1, hh.2.2, ?_, hpeg, d, hd, hcond, ht.symm, hnb.symm⟩
        rw [← hf]
        simpa using hmem
      · exact absurd heq (by simp)
  · rintro ⟨r, c, hmem, hpeg, d, hd, hcond, ht, hnb⟩
    rw [generate_successor_states, List.mem_flatMap]
    refine ⟨(f, r, c), hmem, ?_⟩
    rw [if_neg (by simpa using hpeg)]
    rw [List.mem_filterMap]
    refine ⟨d, hd, ?_⟩
    simp only
    rw [if_pos hcond, ht, hnb]

theorem mem_gss_iff {b : Board} (hwf : WellFormed b) {f t : Nat} {nb : Board} :
    (f, t, nb) ∈ generate_successor_states b ↔
      ((f, t) ∈ legal_moves b ∧ nb = applyMove b (f, t)) := by
  rw [mem_gss, mem_legal_moves]
  constructor
  · rintro ⟨r, c, hmem, hpeg, d, hd, hcond, ht, hnb⟩
    refine ⟨⟨r, c, hmem, hpeg, d, hd, hcond, ht⟩, ?_⟩
    obtain ⟨b1, b2, b3, b4, hmid, hdst⟩ := hcond
    obtain ⟨hgeom, hmidr, hmidc⟩ := dir_bridge hd b1 b2 b3 b4 rfl rfl
    have hrtlt : ((r:Int) + 2*d.1).toNat < 7 := by omega
    have hctlt : ((c:Int) + 2*d.2).toNat < 7 := by omega
    have hdest' : getI b ((((r:Int) + 2*d.1).toNat : Nat) : Int)
        ((((c:Int) + 2*d.2).toNat : Nat) : Int) = 0 := by
      have e1 : ((((r:Int) + 2*d.1).toNat : Nat) : Int) = (r:Int) + 2*d.1 := by omega
      have e2 : ((((c:Int) + 2*d.2).toNat : Nat) : Int) = (c:Int) + 2*d.2 := by omega
      rw [e1, e2]; exact hdst
    obtain ⟨i, hihole⟩ := wf_zero_hole hwf hrtlt hctlt hdest'
    have hti : t = i := by rw [ht]; exact posIndexD_of_hole hihole
    rw [applyMove_eq (index_to_pos_char.mpr hmem)
      (index_to_pos_char.mpr (by rw [hti]; exact hihole))]
    rw [hnb]
    have em1 : (r + ((r:Int) + 2*d.1).toNat) / 2 = ((r:Int) + d.1).toNat := by omega
    have em2 : (c + ((c:Int) + 2*d.2).toNat) / 2 = ((c:Int) + d.2).toNat := by omega
    rw [em1, em2]
  · rintro ⟨⟨r, c, hmem, hpeg, d, hd, hcond, ht⟩, hnb⟩
    refine ⟨r, c, hmem, hpeg, d, hd, hcond, ht, ?_⟩
    obtain ⟨b1, b2, b3, b4, hmid, hdst⟩ := hcond
    have hrtlt : ((r:Int) + 2*d.1).toNat < 7 := by omega
    have hctlt : ((c:Int) + 2*d.2).toNat < 7 := by omega
    have hdest' : getI b ((((r:Int) + 2*d.1).toNat : Nat) : Int)
        ((((c:Int) + 2*d.2).toNat : Nat) : Int) = 0 := by
      have e1 : ((((r:Int) + 2*d.1).toNat : Nat) : Int) = (r:Int) + 2*d.1 := by omega
      have e2 : ((((c:Int) + 2*d.2).toNat : Nat) : Int) = (c:Int) + 2*d.2 := by omega
      rw [e1, e2]; exact hdst
    obtain ⟨i, hihole⟩ := wf_zero_hole hwf hrtlt hctlt hdest'
    have hti : t = i := by rw [ht]; exact posIndexD_of_hole hihole
    rw [hnb]
    rw [applyMove_eq (index_to_pos_char.mpr hmem)
      (index_to_pos_char.mpr (by rw [hti]; exact hihole))]
    have em1 : (r + ((r:Int) + 2*d.1).toNat) / 2 = ((r:Int) + d.1).toNat := by omega
    have em2 : (c + ((c:Int) + 2*d.2).toNat) / 2 = ((c:Int) + d.2).toNat := by omega
    rw [em1, em2]

/-- Embedding of `generate_child_boards` from `bfs.py` with the state of the input buffer
threaded explicitly: per iteration `new_board` starts as a full value copy
of the input (`deepcopy(current_board)`) and the three writes of the jump
target `new_board` only (inside `applyMove`); the second component is the
state of the input buffer when the loop finishes, which no write ever
touched. -/
def generate_child_boards_frame (current_board : Board) : List (Board × Move) × Board :=
  ((legal_moves current_board).map (fun m =>
      let new_board := current_board
      (applyMove new_board m, m)),
   current_board)

theorem applyMove_ne {b : Board} (hwf : WellFormed b) {f t : Nat}
    (h : (f, t) ∈ legal_moves b) : applyMove b (f, t) ≠ b := by
  obtain ⟨rf, cf, rt, ct, hf, ht, hpeg, hdest, hgeom, hmid⟩ :=
    (legal_moves_iff_spec hwf f t).mp h
  obtain ⟨hrf, hcf⟩ : rf < 7 ∧ cf < 7 := holes_bounds _ (index_to_pos_char.mp hf)
  obtain ⟨hd1, hd2, hd3⟩ := move_cells_distinct hgeom
  intro heq
  have hcell : applyMove b (f, t) ⟨rf, hrf⟩ ⟨cf, hcf⟩ = b ⟨rf, hrf⟩ ⟨cf, hcf⟩ := by rw [heq]
  rw [applyMove_eq hf ht] at hcell
  rw [setN_other _ 1 (by simpa using fun a b => hd3 ⟨a, b⟩)] at hcell
  rw [setN_other _ 0 (by simpa using fun a b => hd1 ⟨a, b⟩)] at hcell
  rw [setN_same] at hcell
  have : b ⟨rf, hrf⟩ ⟨cf, hcf⟩ = 1 := by rw [← getI_coe b hrf hcf]; exact hpeg
  rw [this] at hcell
  exact absurd hcell (by norm_num)

/-- Claim C3: move application during search is pure: generating all child
boards returns new board values (every child is the move applied to the
unmodified input and differs from it) and leaves the input board
unchanged, cell for cell (the threaded input buffer comes back equal to
the input); the same holds for the successor generator of `test.py`. -/
theorem child_generation_pure {b : Board} (hwf : WellFormed b) :
    (generate_child_boards_frame b).2 = b ∧
    (generate_child_boards_frame b).1 = generate_child_boards b ∧
    (∀ e ∈ generate_child_boards b, e.1 = applyMove b e.2 ∧ e.1 ≠ b) ∧
    (∀ s ∈ generate_successor_states b, s.2.2 = applyMove b (s.1, s.2.1) ∧ s.2.2 ≠ b) := by
  refine ⟨rfl, rfl, ?_, ?_⟩
  · intro e he
    rw [generate_child_boards, List.mem_map] at he
    obtain ⟨m, hm, rfl⟩ := he
    obtain ⟨f, t⟩ := m
    exact ⟨rfl, applyMove_ne hwf hm⟩
  · intro s hs
    obtain ⟨f, t, nb⟩ := s
    obtain ⟨hmove, hboard⟩ := (mem_gss_iff hwf).mp hs
    refine ⟨hboard, ?_⟩
    rw [hboard]
    exact applyMove_ne hwf hmove

/-- Witness for C3 at the initial board and its first child. -/
theorem child_generation_pure_witness :
    WellFormed initBoard ∧
    (generate_child_boards_frame initBoard).2 = initBoard ∧
    ((applyMove initBoard (5, 17), ((5:Nat), (17:Nat))) ∈ generate_child_boards initBoard ∧
      (applyMove initBoard (5, 17) = applyMove initBoard (5, 17) ∧
        applyMove initBoard (5, 17) ≠ initBoard)) :=
  ⟨by decide, (@child_generation_pure initBoard (by decide)).1, by decide,
    (@child_generation_pure initBoard (by decide)).2.2.1
      (applyMove initBoard (5, 17), ((5:Nat), (17:Nat))) (by decide)⟩

/-! ### The depth-first search of HDFS.py -/

/-- Search-tree node of `HDFS.py` (`class treenodes`): board, parent link
and the move taken to reach the node.  The source sets `parent=None` and
`move=None` exactly for the root, so the embedding fuses the two optional
fields into the two constructors. -/
inductive TreeNode where
  | root (board : Board)
  | child (board : Board) (parent : TreeNode) (move : Move)

def TreeNode.board : TreeNode → Board
  | .root b => b
  | .child b _ _ => b

/-- The move sequence reported by `print_path`: walk parent links to the
root, reverse, and print each non-root node's move. -/
def TreeNode.pathMoves : TreeNode → List Move
  | .root _ => []
  | .child _ p m => p.pathMoves ++ [m]

/-- Embedding of `generate_child_boards` from `HDFS.py`: the same enumeration and
application as the `bfs.py` version, wrapping each child board in a
`treenodes` whose parent is the expanded node. -/
def generate_child_boards_H (node : TreeNode) : List TreeNode :=
  (legal_moves node.board).map (fun m => TreeNode.child (applyMove node.board m) node m)

/-- The sort key of `heuristic_order`: `1/(len(legal_moves(...)) + 1)`.
The source computes it in floating point; for the list lengths that can
occur the correctly-rounded doubles of `1/(n+1)` are distinct and ordered
exactly like these rationals. -/
def heuristicKey (n : TreeNode) : ℚ :=
  1 / ((legal_moves n.board).length + 1)

theorem heuristicKey_le_iff (a b : TreeNode) :
    heuristicKey a ≤ heuristicKey b ↔
      (legal_moves b.board).length ≤ (legal_moves a.board).length := by
  unfold heuristicKey
  rw [div_le_div_iff₀ (by positivity) (by positivity), one_mul, one_mul,
    add_le_add_iff_right]
  exact Nat.cast_le

instance (a b : TreeNode) : Decidable (heuristicKey a ≤ heuristicKey b) :=
  decidable_of_iff _ (heuristicKey_le_iff a b).symm

/-- Embedding of `heuristic_order` from `HDFS.py`:
`reversed(sorted(children, key=lambda x: 1/(len(legal_moves(x.board)) + 1)))`.
Python's `sorted` is a stable ascending sort, modelled by insertion sort. -/
def heuristic_order (children : List TreeNode) : List TreeNode :=
  (List.insertionSort (fun a b => heuristicKey a ≤ heuristicKey b) children).reverse

/-- Python's `==` between a serialized tuple-of-tuples and a `treenodes`
object is always `False` (no `__eq__` on `treenodes`), so the test
`serialized_child not in explored` in `DFS` never filters anything. -/
def keyEqNode : Key → TreeNode → Bool := fun _ _ => false

/-- Python's `==` between a `treenodes` object and a serialized tuple is
always `False`, so `state not in chechked_boards` in `add_to_frontier`
never filters anything. -/
def nodeEqKey : TreeNode → Key → Bool := fun _ _ => false

/-- Embedding of `add_to_frontier` from `HDFS.py`: appends unless the node occurs in the
`chechked_boards` list (which, comparing a node against serialized keys,
never happens). -/
def add_to_frontier (chechked : List Key) (frontier : List TreeNode)
    (state : TreeNode) : List TreeNode :=
  if chechked.any (fun k => nodeEqKey state k) then frontier else frontier ++ [state]

/-- The `DFS` loop of `HDFS.py`, with fuel: `frontier.pop()` takes the last
element (LIFO); the dequeued node is appended to `explored` (as a node) and
to `chechked_boards` (as a key) before the win test; children are pushed in
heuristic order, filtered by the two vacuous membership tests.  Returns the
sequence of dequeued boards and the winning node, if reached in fuel. -/
def DFSloop : Nat → List TreeNode → List Key → List TreeNode → List Board × Option TreeNode
  | 0, _, _, _ => ([], none)
  | fuel+1, frontier, chechked, explored =>
    match frontier.getLast? with
    | none => ([], none)
    | some node =>
      let rest := frontier.dropLast
      let explored2 := explored ++ [node]
      let chechked2 := chechked ++ [serialize node.board]
      if pegCount node.board = 1 then ([node.board], some node)
      else
        let children := heuristic_order (generate_child_boards_H node)
        let frontier2 := children.foldl (fun fr c =>
          if explored2.any (fun n => keyEqNode (serialize c.board) n) then fr
          else add_to_frontier chechked2 fr c) rest
        let result := DFSloop fuel frontier2 chechked2 explored2
        (node.board :: result.1, result.2)

/-- Embedding of `DFS()` from `HDFS.py`, generalized over the start board (the source
always starts from the global initial board). -/
def DFSrun (start : Board) (fuel : Nat) : List Board × Option TreeNode :=
  DFSloop fuel [TreeNode.root start] [serialize start] []

theorem orderedInsert_congr {α : Type} {r s : α → α → Prop}
    [DecidableRel r] [DecidableRel s] (h : ∀ a b, r a b ↔ s a b) :
    ∀ (l : List α) (a : α), List.orderedInsert r a l = List.orderedInsert s a l := by
  intro l
  induction l with
  | nil => intro a; rfl
  | cons b tl ih =>
    intro a
    simp only [List.orderedInsert]
    rw [if_congr (h a b) rfl (congrArg _ (ih a))]

theorem insertionSort_congr {α : Type} {r s : α → α → Prop}
    [DecidableRel r] [DecidableRel s] (h : ∀ a b, r a b ↔ s a b) :
    ∀ l : List α, List.insertionSort r l = List.insertionSort s l := by
  intro l
  induction l with
  | nil => rfl
  | cons a tl ih =>
    simp only [List.insertionSort]
    rw [ih, orderedInsert_congr h]

/-- The child ordering in the words of the spec: a stable sort of the
freshly generated children by descending number of legal moves in the
child's board (ties keep the enumeration order). -/
def spec_child_order (children : List TreeNode) : List TreeNode :=
  List.insertionSort
    (fun a b => (legal_moves b.board).length ≤ (legal_moves a.board).length) children

/-- Claim C7: in depth-first mode the freshly generated children are
explored in the order `(heuristic_order cs).reverse` (the frontier is
LIFO, so among siblings the last-pushed is expanded first); that order is
exactly the spec's stable sort by descending legal-move count, hence
children with more legal moves come first, ties keeping the enumeration
order, and it is a permutation of the generated children. -/
theorem dfs_child_order (cs : List TreeNode) :
    (heuristic_order cs).reverse = spec_child_order cs ∧
    (heuristic_order cs).reverse.Pairwise
      (fun a b => (legal_moves b.board).length ≤ (legal_moves a.board).length) ∧
    (heuristic_order cs).reverse.Perm cs := by
  have heq : (heuristic_order cs).reverse = spec_child_order cs := by
    rw [heuristic_order, List.reverse_reverse]
    exact insertionSort_congr heuristicKey_le_iff cs
  refine ⟨heq, ?_, ?_⟩
  · rw [heq, spec_child_order]
    haveI h1 : IsTotal TreeNode
        (fun a b => (legal_moves b.board).length ≤ (legal_moves a.board).length) :=
      ⟨fun a b => le_total _ _⟩
    haveI h2 : IsTrans TreeNode
        (fun a b => (legal_moves b.board).length ≤ (legal_moves a.board).length) :=
      ⟨fun a b c hab hbc => le_trans hbc hab⟩
    exact List.sorted_insertionSort _ _
  · rw [heq, spec_child_order]
    exact List.perm_insertionSort _ _

theorem getLast?_mem {α : Type} {l : List α} {a : α} (h : l.getLast? = some a) : a ∈ l := by
  obtain ⟨hne, rfl⟩ :=
    List.mem_getLast?_eq_getLast (show a ∈ l.getLast? from by rw [h]; rfl)
  exact List.getLast_mem hne

theorem mem_push_foldl {α : Type} {g : List α → α → List α}
    (hg : ∀ acc c x, x ∈ g acc c → x ∈ acc ∨ x = c) :
    ∀ (l : List α) (init : List α) (x : α), x ∈ l.foldl g init → x ∈ init ∨ x ∈ l := by
  intro l
  induction l with
  | nil => simp
  | cons c cs ih =>
    intro init x hx
    rcases ih _ x hx with h | h
    · rcases hg init c x h with h | rfl
      · left; exact h
      · right; exact List.mem_cons_self _ _
    · right; exact List.mem_cons_of_mem _ h

theorem dfs_frontier2_mem {node : TreeNode} {rest : List TreeNode}
    {chechked2 : List Key} {explored2 : List TreeNode} {x : TreeNode}
    (hx : x ∈ (heuristic_order (generate_child_boards_H node)).foldl (fun fr c =>
      if explored2.any (fun n => keyEqNode (serialize c.board) n) then fr
      else add_to_frontier chechked2 fr c) rest) :
    x ∈ rest ∨ ∃ m ∈ legal_moves node.board,
      x = TreeNode.child (applyMove node.board m) node m := by
  have hg : ∀ (acc : List TreeNode) c x, x ∈ (if explored2.any
      (fun n => keyEqNode (serialize c.board) n) then acc
      else add_to_frontier chechked2 acc c) → x ∈ acc ∨ x = c := by
    intro acc c y hy
    split at hy
    · left; exact hy
    · rw [add_to_frontier] at hy
      split at hy
      · left; exact hy
      · rcases List.mem_append.mp hy with h | h
        · left; exact h
        · right; simpa using h
  rcases mem_push_foldl hg _ rest x hx with h | h
  · left; exact h
  · right
    have h2 : x ∈ generate_child_boards_H node := by
      rw [heuristic_order] at h
      rw [List.mem_reverse] at h
      exact (List.perm_insertionSort _ _).mem_iff.mp h
    rw [generate_child_boards_H, List.mem_map] at h2
    obtain ⟨m, hm, rfl⟩ := h2
    exact ⟨m, hm, rfl⟩

theorem DFSloop_win_replay {start : Board} :
    ∀ fuel frontier chechked explored,
      (∀ n ∈ frontier, replay start n.pathMoves = some n.board) →
      ∀ n, (DFSloop fuel frontier chechked explored).2 = some n →
        replay start n.pathMoves = some n.board := by
  intro fuel
  induction fuel with
  | zero =>
    intro frontier chechked explored hinv n hn
    simp [DFSloop] at hn
  | succ fuel ih =>
    intro frontier chechked explored hinv n hn
    rw [DFSloop] at hn
    cases hlast : frontier.getLast? with
    | none => rw [hlast] at hn; simp at hn
    | some node =>
      rw [hlast] at hn
      have hnodemem : node ∈ frontier := getLast?_mem hlast
      simp only at hn
      split at hn
      · simp only [Option.some.injEq] at hn
        rw [← hn]
        exact hinv node hnodemem
      · refine ih _ _ _ ?_ n hn
        intro x hx
        rcases dfs_frontier2_mem hx with h | ⟨m, hm, rfl⟩
        · exact hinv x (List.mem_of_mem_dropLast h)
        · show replay start (node.pathMoves ++ [m]) = some (applyMove node.board m)
          rw [replay_append, hinv node hnodemem]
          simp [replay, hm]

/-- A well-formed board with pegs at holes 15 `(3,1)`, 16 `(3,2)`,
28 `(5,2)` and 29 `(5,3)`: the two independent jumps `(15,17)` and
`(28,30)` commute, so the depth-first search reaches the same two-peg
board along two different branches. -/
def dupStart : Board := fun r c =>
  if (r.val, c.val) = (3, 1) ∨ (r.val, c.val) = (3, 2) ∨
      (r.val, c.val) = (5, 2) ∨ (r.val, c.val) = (5, 3) then 1
  else if isHole r.val c.val then 0 else -1

/-- Claim C5 is violated by the depth-first search: the run from
`dupStart` dequeues eight boards and two of them have equal canonical
keys, because both dedup membership tests of `HDFS.py` compare values of
different Python types (a serialized tuple against `treenodes` objects
and vice versa) and never filter anything; the run from the program's
fixed initial board likewise repeats a key within its first 35
expansions. -/
theorem dfs_expands_duplicate_board :
    ¬ (((DFSrun dupStart 9).1.map serialize).Nodup) := by decide

/-! ### The breadth-first searches of test.py and bfs.py -/

/-- The child-enqueueing loop of `BFS` in `test.py`: for each successor,
skip it when its canonical key is already in the visited set, otherwise
add the key to the visited set and append the child (with its extended
move sequence) at the back of the queue. -/
def pushChildren (p : List Move) :
    List (Nat × Nat × Board) → List (Board × List Move) → List Key →
      List (Board × List Move) × List Key
  | [], q, v => (q, v)
  | s :: cs, q, v =>
    if serialize s.2.2 ∈ v then pushChildren p cs q v
    else pushChildren p cs (q ++ [(s.2.2, p ++ [(s.1, s.2.1)])]) (serialize s.2.2 :: v)

/-- The `BFS` loop of `test.py`, with fuel: FIFO queue of
`(board, move_sequence)` pairs and a visited set of canonical keys seeded
with the initial key.  `none` means the fuel ran out; `some none` models
the "No solution found" return `None`; `some (some (moves, g))` models
`return current_move_sequence` with `g` the goal node's board (in scope at
the return). -/
def BFSloop : Nat → List (Board × List Move) → List Key →
    Option (Option (List Move × Board))
  | 0, _, _ => none
  | _+1, [], _ => some none
  | fuel+1, (b, p) :: rest, v =>
    if pegCount b = 1 ∧ b 3 3 = 1 then some (some (p, b))
    else
      let qv := pushChildren p (generate_successor_states b) rest v
      BFSloop fuel qv.1 qv.2

/-- Embedding of `BFS()` from `test.py`, generalized over the start board (the source
always deep-copies the fixed global initial board). -/
def BFSrun (start : Board) (fuel : Nat) : Option (Option (List Move × Board)) :=
  BFSloop fuel [(start, [])] [serialize start]

/-- A well-formed two-peg board (pegs at holes 15 `(3,1)` and 16 `(3,2)`)
solvable in one move to the center: the jump `(15, 17)`. -/
def bstar : Board := fun r c =>
  if (r.val, c.val) = (3, 1) ∨ (r.val, c.val) = (3, 2) then 1
  else if isHole r.val c.val then 0 else -1


theorem pushChildren_spec (pp : List Move) :
    ∀ (cs : List (Nat × Nat × Board)) (q : List (Board × List Move)) (v : List Key),
      ∃ added,
        (pushChildren pp cs q v).1 = q ++ added ∧
        (∀ k ∈ v, k ∈ (pushChildren pp cs q v).2) ∧
        (∀ k ∈ (pushChildren pp cs q v).2, k ∈ v ∨ ∃ e ∈ added, serialize e.1 = k) ∧
        (∀ e ∈ added, ∃ s ∈ cs, e = (s.2.2, pp ++ [(s.1, s.2.1)]) ∧ serialize s.2.2 ∉ v) ∧
        (∀ s ∈ cs, serialize s.2.2 ∈ (pushChildren pp cs q v).2) ∧
        (∀ e ∈ added, serialize e.1 ∈ (pushChildren pp cs q v).2) := by
  intro cs
  induction cs with
  | nil =>
    intro q v
    exact ⟨[], by simp [pushChildren], by simp [pushChildren], by simp [pushChildren],
      by simp, by simp, by simp⟩
  | cons s cs ih =>
    intro q v
    by_cases hin : serialize s.2.2 ∈ v
    · obtain ⟨added, h1, h2, h3, h4, h5, h6⟩ := ih q v
      have hstep : pushChildren pp (s :: cs) q v = pushChildren pp cs q v := by
        rw [pushChildren, if_pos hin]
      rw [hstep]
      refine ⟨added, h1, h2, h3, ?_, ?_, h6⟩
      · intro e he
        obtain ⟨s', hs', he2, hnv⟩ := h4 e he
        exact ⟨s', List.mem_cons_of_mem _ hs', he2, hnv⟩
      · intro s' hs'
        rcases List.mem_cons.mp hs' with rfl | hs'
        · exact h2 _ hin
        · exact h5 s' hs'
    · obtain ⟨added, h1, h2, h3, h4, h5, h6⟩ :=
        ih (q ++ [(s.2.2, pp ++ [(s.1, s.2.1)])]) (serialize s.2.2 :: v)
      have hstep : pushChildren pp (s :: cs) q v
          = pushChildren pp cs (q ++ [(s.2.2, pp ++ [(s.1, s.2.1)])]) (serialize s.2.2 :: v) := by
        rw [pushChildren, if_neg hin]
      rw [hstep]
      refine ⟨(s.2.2, pp ++ [(s.1, s.2.1)]) :: added, ?_, ?_, ?_, ?_, ?_, ?_⟩
      · rw [h1]; simp
      · intro k hk
        exact h2 k (List.mem_cons_of_mem _ hk)
      · intro k hk
        rcases h3 k hk with hk2 | ⟨e, he, hke⟩
        · rcases List.mem_cons.mp hk2 with rfl | hk3
          · right
            exact ⟨(s.2.2, pp ++ [(s.1, s.2.1)]), List.mem_cons_self _ _, rfl⟩
          · left; exact hk3
        · right; exact ⟨e, List.mem_cons_of_mem _ he, hke⟩
      · intro e he
        rcases List.mem_cons.mp he with rfl | he2
        · exact ⟨s, List.mem_cons_self _ _, rfl, hin⟩
        · obtain ⟨s', hs', he3, hnv⟩ := h4 e he2
          refine ⟨s', List.mem_cons_of_mem _ hs', he3, fun hc => hnv (List.mem_cons_of_mem _ hc)⟩
      · intro s' hs'
        rcases List.mem_cons.mp hs' with rfl | hs2
        · exact h2 _ (List.mem_cons_self _ _)
        · exact h5 s' hs2
      · intro e he
        rcases List.mem_cons.mp he with rfl | he2
        · exact h2 _ (List.mem_cons_self _ _)
        · exact h6 e he2

theorem replay_wf {b : Board} (hwf : WellFormed b) :
    ∀ {p : List Move} {c : Board}, replay b p = some c → WellFormed c := by
  intro p
  induction p generalizing b with
  | nil =>
    intro c hc
    rw [replay] at hc
    injection hc with hc
    rw [← hc]
    exact hwf
  | cons m ms ih =>
    intro c hc
    rw [replay] at hc
    split at hc
    · rename_i hm
      obtain ⟨f, t⟩ := m
      exact ih (wf_applyMove hwf hm) hc
    · exact absurd hc (by simp)

/-- The loop invariant of the `test.py` breadth-first search: the queue
holds boards with valid minimal-length paths in nondecreasing order
spanning at most two depths, the visited set is exactly the keys of queued
or already-processed boards, processed boards are non-goals whose
successors have all been discovered, and the root key is present. -/
structure BfsInv (start : Board) (queue : List (Board × List Move))
    (visited : List Key) (processed : List Board) : Prop where
  wf : WellFormed start
  qok : ∀ e ∈ queue, replay start e.2 = some e.1
  mono : queue.Pairwise (fun e1 e2 => e1.2.length ≤ e2.2.length)
  span : ∀ e1 ∈ queue, ∀ e2 ∈ queue, e2.2.length ≤ e1.2.length + 1
  vis : ∀ k ∈ visited,
    (∃ e ∈ queue, serialize e.1 = k) ∨ (∃ c ∈ processed, serialize c = k)
  qvis : ∀ e ∈ queue, serialize e.1 ∈ visited
  procng : ∀ c ∈ processed, ¬(pegCount c = 1 ∧ c 3 3 = 1)
  qopt : ∀ e ∈ queue, ∀ p, replay start p = some e.1 → e.2.length ≤ p.length
  closed : ∀ c ∈ processed, ∀ s ∈ generate_successor_states c,
    serialize s.2.2 ∈ visited
  rootv : serialize start ∈ visited

theorem bfs_cov {start : Board} {queue : List (Board × List Move)}
    {visited : List Key} {processed : List Board}
    (inv : BfsInv start queue visited processed) :
    ∀ p x, replay start p = some x →
      serialize x ∈ visited ∨
      ∃ p1 m p2, p = p1 ++ m :: p2 ∧
        ∃ e ∈ queue, replay start p1 = some e.1 ∧ e.2.length ≤ p1.length := by
  intro p
  induction p using List.reverseRecOn with
  | nil =>
    intro x hx
    left
    rw [replay] at hx
    injection hx with hx
    rw [← hx]
    exact inv.rootv
  | append_singleton p1 m ih =>
    intro x hx
    rw [replay_append] at hx
    cases hy : replay start p1 with
    | none => rw [hy] at hx; simp at hx
    | some y =>
      rw [hy] at hx
      simp only [Option.some_bind] at hx
      rw [replay] at hx
      split at hx
      · rename_i hm
        have hxa : replay (applyMove y m) [] = some x := hx
        rw [replay] at hxa
        injection hxa with hxa
        rcases ih y hy with hvy | ⟨q1, m', q2, heq, e, he, hrep, hlen⟩
        · rcases inv.vis _ hvy with ⟨e, he, hse⟩ | ⟨c, hc, hsc⟩
          · right
            refine ⟨p1, m, [], rfl, e, he, ?_, ?_⟩
            · rw [hy, serialize_inj hse]
            · exact inv.qopt e he p1 (by rw [hy, serialize_inj hse])
          · left
            have hceq : c = y := serialize_inj hsc
            have hwfy : WellFormed y := replay_wf inv.wf hy
            obtain ⟨f, t⟩ := m
            have hmem : (f, t, applyMove y (f, t)) ∈ generate_successor_states y :=
              (mem_gss_iff hwfy).mpr ⟨hm, rfl⟩
            have := inv.closed y (by rw [← hceq]; exact hc) _ hmem
            rw [← hxa]
            exact this
        · right
          exact ⟨q1, m', q2 ++ [m], by rw [heq]; simp, e, he, hrep, hlen⟩
      · exact absurd hx (by simp)

theorem bfs_inv_step {start b : Board} {pp : List Move}
    {rest : List (Board × List Move)} {visited : List Key} {processed : List Board}
    (inv : BfsInv start ((b, pp) :: rest) visited processed)
    (hng : ¬(pegCount b = 1 ∧ b 3 3 = 1)) :
    BfsInv start (pushChildren pp (generate_successor_states b) rest visited).1
      (pushChildren pp (generate_successor_states b) rest visited).2
      (processed ++ [b]) := by
  obtain ⟨added, h1, h2, h3, h4, h5, h6⟩ :=
    pushChildren_spec pp (generate_successor_states b) rest visited
  have hheadmem : (b, pp) ∈ (b, pp) :: rest := List.mem_cons_self _ _
  have hheadok : replay start pp = some b := inv.qok _ hheadmem
  have hwfb : WellFormed b := replay_wf inv.wf hheadok
  have hmono_head : ∀ e ∈ rest, pp.length ≤ e.2.length :=
    (List.pairwise_cons.mp inv.mono).1
  have hmono_rest := (List.pairwise_cons.mp inv.mono).2
  have haddinfo : ∀ e ∈ added,
      (∃ mv ∈ legal_moves b, e.1 = applyMove b mv ∧ e.2 = pp ++ [mv]) ∧
      serialize e.1 ∉ visited := by
    intro e he
    obtain ⟨s, hs, rfl, hnv⟩ := h4 e he
    obtain ⟨hmv, hb⟩ := (mem_gss_iff hwfb).mp
      (show (s.1, s.2.1, s.2.2) ∈ generate_successor_states b from by simpa using hs)
    exact ⟨⟨(s.1, s.2.1), hmv, hb, rfl⟩, hnv⟩
  have haddok : ∀ e ∈ added, replay start e.2 = some e.1 := by
    intro e he
    obtain ⟨⟨mv, hmv, hb, hp⟩, _⟩ := haddinfo e he
    rw [hp, replay_append, hheadok]
    simp only [Option.some_bind]
    rw [replay, if_pos hmv, hb]
    rfl
  have haddlen : ∀ e ∈ added, e.2.length = pp.length + 1 := by
    intro e he
    obtain ⟨⟨mv, hmv, hb, hp⟩, _⟩ := haddinfo e he
    rw [hp]
    simp
  have haddopt : ∀ e ∈ added, ∀ p', replay start p' = some e.1 →
      pp.length + 1 ≤ p'.length := by
    intro e he p' hp'
    by_contra hcon
    push_neg at hcon
    rcases bfs_cov inv p' e.1 hp' with hv | ⟨p1, m, p2, heq, e', he', hrep, hlen⟩
    · exact (haddinfo e he).2 hv
    · have hp1len : p1.length + 1 ≤ p'.length := by
        rw [heq, List.length_append, List.length_cons]
        omega
      have hle : pp.length ≤ e'.2.length := by
        rcases List.mem_cons.mp he' with heq2 | h
        · rw [heq2]
        · exact hmono_head _ h
      omega
  constructor
  · exact inv.wf
  · -- qok
    intro e he
    rw [h1] at he
    rcases List.mem_append.mp he with he | he
    · exact inv.qok _ (List.mem_cons_of_mem _ he)
    · exact haddok e he
  · -- mono
    rw [h1, List.pairwise_append]
    refine ⟨hmono_rest, ?_, ?_⟩
    · refine List.pairwise_of_forall_mem_list ?_
      intro x hx y hy
      rw [haddlen x hx, haddlen y hy]
    · intro x hx y hy
      rw [haddlen y hy]
      have hx2 : x.2.length ≤ pp.length + 1 :=
        inv.span _ hheadmem _ (List.mem_cons_of_mem _ hx)
      omega
  · -- span
    intro e1 he1 e2 he2
    rw [h1] at he1 he2
    rcases List.mem_append.mp he1 with he1 | he1 <;>
      rcases List.mem_append.mp he2 with he2 | he2
    · exact inv.span _ (List.mem_cons_of_mem _ he1) _ (List.mem_cons_of_mem _ he2)
    · rw [haddlen e2 he2]
      have := hmono_head _ he1
      omega
    · rw [haddlen e1 he1]
      have h2s : e2.2.length ≤ pp.length + 1 :=
        inv.span _ hheadmem _ (List.mem_cons_of_mem _ he2)
      omega
    · rw [haddlen e1 he1, haddlen e2 he2]
      omega
  · -- vis
    intro k hk
    rcases h3 k hk with hk2 | ⟨e, he, hke⟩
    · rcases inv.vis k hk2 with ⟨e, he, hke⟩ | ⟨c, hc, hkc⟩
      · rcases List.mem_cons.mp he with heq2 | he2
        · right
          refine ⟨b, by simp, ?_⟩
          rw [← hke, heq2]
        · left
          exact ⟨e, by rw [h1]; exact List.mem_append_left _ he2, hke⟩
      · right
        exact ⟨c, List.mem_append_left _ hc, hkc⟩
    · left
      exact ⟨e, by rw [h1]; exact List.mem_append_right _ he, hke⟩
  · -- qvis
    intro e he
    rw [h1] at he
    rcases List.mem_append.mp he with he | he
    · exact h2 _ (inv.qvis _ (List.mem_cons_of_mem _ he))
    · exact h6 e he
  · -- procng
    intro c hc
    rcases List.mem_append.mp hc with hc | hc
    · exact inv.procng c hc
    · have : c = b := by simpa using hc
      rw [this]
      exact hng
  · -- qopt
    intro e he p' hp'
    rw [h1] at he
    rcases List.mem_append.mp he with he | he
    · exact inv.qopt _ (List.mem_cons_of_mem _ he) p' hp'
    · rw [haddlen e he]
      exact haddopt e he p' hp'
  · -- closed
    intro c hc s hs
    rcases List.mem_append.mp hc with hc | hc
    · exact h2 _ (inv.closed c hc s hs)
    · have : c = b := by simpa using hc
      rw [this] at hs
      exact h5 s hs
  · -- rootv
    exact h2 _ inv.rootv

theorem BFSloop_correct {start : Board} :
    ∀ fuel (queue : List (Board × List Move)) (visited : List Key)
      (processed : List Board), BfsInv start queue visited processed →
      ∀ p g, BFSloop fuel queue visited = some (some (p, g)) →
        (replay start p = some g ∧ pegCount g = 1 ∧ g 3 3 = 1) ∧
        (∀ q g2, replay start q = some g2 → pegCount g2 = 1 → g2 3 3 = 1 →
          p.length ≤ q.length) := by
  intro fuel
  induction fuel with
  | zero =>
    intro queue visited processed inv p g h
    simp [BFSloop] at h
  | succ fuel ih =>
    intro queue visited processed inv p g h
    cases queue with
    | nil =>
      rw [BFSloop] at h
      exact absurd h (by simp)
    | cons hd rest =>
      obtain ⟨b, pp⟩ := hd
      rw [BFSloop] at h
      split at h
      · rename_i hgoal
        simp only [Option.some.injEq, Prod.mk.injEq] at h
        obtain ⟨hp, hg⟩ := h
        subst hp
        subst hg
        have hheadmem : (b, pp) ∈ (b, pp) :: rest := List.mem_cons_self _ _
        have hmono_head : ∀ e ∈ rest, pp.length ≤ e.2.length :=
          (List.pairwise_cons.mp inv.mono).1
        refine ⟨⟨inv.qok _ hheadmem, hgoal.1, hgoal.2⟩, ?_⟩
        intro q g2 hq h1 h2
        by_contra hcon
        push_neg at hcon
        rcases bfs_cov inv q g2 hq with hv | ⟨q1, m, q2', heq, e, he, hrep, hlen⟩
        · rcases inv.vis _ hv with ⟨e, he, hse⟩ | ⟨c, hc, hsc⟩
          · have he1 : e.1 = g2 := serialize_inj hse
            have hlq : e.2.length ≤ q.length :=
              inv.qopt e he q (by rw [hq, he1])
            have hge : pp.length ≤ e.2.length := by
              rcases List.mem_cons.mp he with heq2 | hmem
              · rw [heq2]
              · exact hmono_head _ hmem
            omega
          · have hcg : c = g2 := serialize_inj hsc
            exact inv.procng c hc (by rw [hcg]; exact ⟨h1, h2⟩)
        · have hq1 : q1.length + 1 ≤ q.length := by
            rw [heq, List.length_append, List.length_cons]
            omega
          have hge : pp.length ≤ e.2.length := by
            rcases List.mem_cons.mp he with heq2 | hmem
            · rw [heq2]
            · exact hmono_head _ hmem
          omega
      · rename_i hng
        exact ih _ _ _ (bfs_inv_step inv hng) p g h

theorem bfs_initial_inv {start : Board} (hwf : WellFormed start) :
    BfsInv start [(start, [])] [serialize start] [] := by
  constructor
  · exact hwf
  · intro e he
    have : e = (start, []) := by simpa using he
    rw [this]
    rfl
  · simp
  · intro e1 he1 e2 he2
    have h1 : e1 = (start, []) := by simpa using he1
    have h2 : e2 = (start, []) := by simpa using he2
    rw [h1, h2]
    omega
  · intro k hk
    have : k = serialize start := by simpa using hk
    left
    exact ⟨(start, []), by simp, by rw [this]⟩
  · intro e he
    have : e = (start, []) := by simpa using he
    rw [this]
    simp
  · simp
  · intro e he p hp
    have : e = (start, []) := by simpa using he
    rw [this]
    simp
  · simp
  · simp

/-- The reported outcome of `BFS` in `bfs.py`: the function prints either
"★ You win! Only one peg remains. ★" or "No solution found." and its
Python return value is `None` on every path — in particular the win
outcome carries no move sequence (no moves are tracked at all). -/
inductive BfsPyOutcome where
  | win
  | noSolution
deriving DecidableEq

/-- Python's `==` between a board (a list of lists) and a serialized key
(a tuple of tuples) is always `False`, so the `state not in explored`
conjunct of `add_to_frontier` in `bfs.py` never filters anything. -/
def boardEqKey : Board → Key → Bool := fun _ _ => false

/-- Embedding of `add_to_frontier` from `bfs.py`: append unless the board occurs in
`explored` (vacuous, wrong type) or is already in the frontier. -/
def add_to_frontier_py (explored : List Key) (frontier : List Board)
    (state : Board) : List Board :=
  if ¬ explored.any (fun k => boardEqKey state k) ∧ state ∉ frontier then
    frontier ++ [state]
  else frontier

/-- The `BFS` loop of `bfs.py`, with fuel: FIFO frontier of raw boards,
`explored` list of serialized keys appended at dequeue, goal test
`peg_count == 1` (any position), children filtered against `explored` and
the current frontier. -/
def bfsPyLoop : Nat → List Board → List Key → Option BfsPyOutcome
  | 0, _, _ => none
  | _+1, [], _ => some .noSolution
  | fuel+1, node :: rest, explored =>
    let explored2 := explored ++ [serialize node]
    if pegCount node = 1 then some .win
    else
      let frontier2 := ((generate_child_boards node).map (fun e => e.1)).foldl
        (fun fr child =>
          if serialize child ∈ explored2 then fr
          else add_to_frontier_py explored2 fr child) rest
      bfsPyLoop fuel frontier2 explored2

/-- Embedding of `BFS()` from `bfs.py`, generalized over the start board (the source
always copies the fixed global initial board). -/
def bfsPyRun (start : Board) (fuel : Nat) : Option BfsPyOutcome :=
  bfsPyLoop fuel [start] []

/-- Claim C4: if the breadth-first search reports a solution, that
solution is a valid move sequence from the start board to a goal board
(one peg, at the center) and has the minimum number of moves among all
move sequences that reach a goal board from the start board. -/
theorem bfs_solution_minimal {start : Board} (hwf : WellFormed start)
    {fuel : Nat} {p : List Move} {g : Board}
    (h : BFSrun start fuel = some (some (p, g))) :
    (replay start p = some g ∧ pegCount g = 1 ∧ g 3 3 = 1) ∧
    (∀ q g2, replay start q = some g2 → pegCount g2 = 1 → g2 3 3 = 1 →
      p.length ≤ q.length) :=
  BFSloop_correct fuel _ _ [] (bfs_initial_inv hwf) p g h

/-- Witness for C4 on a two-peg start solved in one move. -/
theorem bfs_solution_minimal_witness :
    WellFormed bstar ∧
    BFSrun bstar 3 = some (some ([(15, 17)], applyMove bstar (15, 17))) ∧
    ((replay bstar [(15, 17)] = some (applyMove bstar (15, 17)) ∧
        pegCount (applyMove bstar (15, 17)) = 1 ∧ applyMove bstar (15, 17) 3 3 = 1) ∧
      (∀ q g2, replay bstar q = some g2 → pegCount g2 = 1 → g2 3 3 = 1 →
        ([(15, 17)] : List Move).length ≤ q.length)) :=
  ⟨by decide, by decide,
    @bfs_solution_minimal bstar (by decide) 3 [(15, 17)] (applyMove bstar (15, 17))
      (by decide)⟩

/-- Claim C9: path reconstruction is consistent with board semantics in
both searches: replaying the reported move sequence from the start board
with the move applicator yields exactly the goal node's board (`test.py`
BFS: the board in scope at the return; `HDFS.py` DFS: the winning node's
board reached by walking parent links). -/
theorem path_reconstruction_consistent :
    (∀ start : Board, WellFormed start → ∀ fuel p g,
        BFSrun start fuel = some (some (p, g)) → replay start p = some g) ∧
    (∀ (start : Board) (fuel : Nat) (n : TreeNode), (DFSrun start fuel).2 = some n →
        replay start n.pathMoves = some n.board) := by
  constructor
  · intro start hwf fuel p g h
    exact (BFSloop_correct fuel _ _ [] (bfs_initial_inv hwf) p g h).1.1
  · intro start fuel n h
    refine DFSloop_win_replay fuel _ _ _ ?_ n h
    intro x hx
    have hx2 : x = TreeNode.root start := by simpa using hx
    rw [hx2]
    rfl

/-- Witness for C9 on the two-peg start board, for both searches. -/
theorem path_reconstruction_consistent_witness :
    (WellFormed bstar ∧
      BFSrun bstar 3 = some (some ([(15, 17)], applyMove bstar (15, 17))) ∧
      replay bstar [(15, 17)] = some (applyMove bstar (15, 17))) ∧
    ((DFSrun bstar 2).2
        = some (TreeNode.child (applyMove bstar (15, 17)) (TreeNode.root bstar) (15, 17)) ∧
      replay bstar
          (TreeNode.child (applyMove bstar (15, 17)) (TreeNode.root bstar) (15, 17)).pathMoves
        = some (TreeNode.child (applyMove bstar (15, 17)) (TreeNode.root bstar) (15, 17)).board) :=
  ⟨⟨by decide, by decide,
     path_reconstruction_consistent.1 bstar (by decide) 3 [(15, 17)]
       (applyMove bstar (15, 17)) (by decide)⟩,
   ⟨by rfl,
     path_reconstruction_consistent.2 bstar 2 _ (by rfl)⟩⟩

/-- Claim C6 counterexample: the `bfs.py` BFS entry point, on a solvable
start, reports success as a bare outcome distinct from the no-solution
marker but carrying no move sequence (the function tracks no moves and
returns `None` on every path), so not every entry point returns a
non-empty move sequence on success. -/
theorem bfspy_win_reports_no_moves :
    bfsPyRun bstar 3 = some BfsPyOutcome.win ∧
    BfsPyOutcome.win ≠ BfsPyOutcome.noSolution := by
  constructor
  · decide
  · decide

/-- Claim C6 (amended): frontier exhaustion yields the explicit
no-solution marker as a normal return value in both entry points, and the
`test.py` BFS returns a non-empty move sequence on success whenever the
start is not itself a goal; the `bfs.py` BFS, however, signals success
without any move sequence. -/
theorem search_result_amended :
    (∀ (fuel : Nat) (v : List Key), BFSloop (fuel+1) [] v = some none) ∧
    (∀ start : Board, WellFormed start →
      ∀ fuel p g, BFSrun start fuel = some (some (p, g)) →
        ¬(pegCount start = 1 ∧ start 3 3 = 1) → p ≠ []) ∧
    (∀ (fuel : Nat) (ex : List Key),
      bfsPyLoop (fuel+1) [] ex = some BfsPyOutcome.noSolution) := by
  refine ⟨fun fuel v => rfl, ?_, fun fuel ex => rfl⟩
  intro start hwf fuel p g h hng hp
  obtain ⟨⟨hrep, h1, h2⟩, _⟩ := BFSloop_correct fuel _ _ [] (bfs_initial_inv hwf) p g h
  rw [hp, replay] at hrep
  injection hrep with hrep
  rw [← hrep] at h1 h2
  exact hng ⟨h1, h2⟩

/-- Witness for the amended C6. -/
theorem search_result_amended_witness :
    BFSloop 1 [] [] = some none ∧
    (WellFormed bstar ∧
      BFSrun bstar 3 = some (some ([(15, 17)], applyMove bstar (15, 17))) ∧
      ¬(pegCount bstar = 1 ∧ bstar 3 3 = 1) ∧ ([(15, 17)] : List Move) ≠ []) ∧
    bfsPyLoop 1 [] [] = some BfsPyOutcome.noSolution :=
  ⟨search_result_amended.1 0 [],
   ⟨by decide, by decide, by decide,
     search_result_amended.2.1 bstar (by decide) 3 [(15, 17)]
       (applyMove bstar (15, 17)) (by decide) (by decide)⟩,
   search_result_amended.2.2 0 []⟩
